import Mathlib

/-!
Verification development for the review merge-and-analysis engine of
`scripts/build_meta.py` (repository `analyza_AKs`).

The Python program is shallowly embedded: every function of the core
(identity keyer, record normalizer, merge engine, dataset finalizer, theme
classifier, analysis engine) is translated into an executable Lean
definition operating on explicit records and association lists (Python
dicts preserve insertion order; they are modelled as ordered association
lists with first-match update).

Modelling conventions, chosen once and used consistently:

* Optional string fields (`author_name`, `review_id`, ...) are modelled as
  `String`, with `""` playing the role of Python's `None`: every use of
  such a field in the source goes through truthiness (`if r.get(...)`) or
  `or ""`, for which `None` and `""` are indistinguishable.
* Numeric JSON fields (`rating_value`, `rating_scale`, `sentiment_score`)
  are modelled by `RVal`: absent/null, a numeric value, or a non-numeric
  value (the source distinguishes the three via `is None` and
  `isinstance(..., (int, float))`).
* Numbers are exact fractions `Q` (integer numerator, positive natural
  denominator) rather than floats; `toRat` maps them to `ℚ` for reasoning.
  Float rounding artefacts are outside the model.
* `hashlib.sha1(s).hexdigest()` is modelled by an injective stand-in
  (`sha1_hexdigest`); the program uses the digest only as a fingerprint of
  the normalized text, and no property proved here depends on the concrete
  hex digits (hash collisions are outside the model).
* `str.lower()` is modelled on the ASCII and Latin-1 letter ranges
  (`A`-`Z` and `À`-`Þ` except `×`); `unicodedata.normalize("NFKD", ·)`
  followed by stripping combining marks is modelled by a character table
  (`nfkdBase`) covering the Latin letters with diacritics that occur in
  the repository's domain. Python's `\s` / `str.strip()` whitespace is
  modelled by the ASCII whitespace characters plus NEL and NBSP.
* `sorted`/`list.sort` are stable sorts; they are modelled by a stable
  structural insertion sort (`insertionSort`).  A stable sort w.r.t. a
  total preorder has a unique result, so this agrees with CPython's
  Timsort on every input.
-/

/-! ## Characters and text -/

/-- Whitespace as matched by Python's `\s` and `str.strip()`, restricted to
the ASCII whitespace characters plus NEL (U+0085) and NBSP (U+00A0). -/
def pySpace (c : Char) : Bool :=
  c.toNat = 32 || c.toNat = 9 || c.toNat = 10 || c.toNat = 11 ||
  c.toNat = 12 || c.toNat = 13 || c.toNat = 133 || c.toNat = 160

/-- Python `str.lower()`, modelled on ASCII `A`-`Z` and Latin-1 `À`-`Þ`
(excluding the multiplication sign `×`). -/
def toLowerPy (c : Char) : Char :=
  if 65 ≤ c.toNat ∧ c.toNat ≤ 90 then Char.ofNat (c.toNat + 32)
  else if 192 ≤ c.toNat ∧ c.toNat ≤ 222 ∧ c.toNat ≠ 215 then Char.ofNat (c.toNat + 32)
  else c

/-- Lowercase a string character by character (Python `str.lower()`). -/
def pyLower (s : String) : String := String.mk (s.data.map toLowerPy)

/-- Drop `p`-characters from both ends of a character list. -/
def stripEnds (p : Char → Bool) (l : List Char) : List Char :=
  ((l.dropWhile p).reverse.dropWhile p).reverse

/-- Python `str.strip()`: remove leading and trailing whitespace. -/
def pyStrip (s : String) : String := String.mk (stripEnds pySpace s.data)

/-- Replace every maximal run of `p`-characters by the single character
`rep`; this is `re.sub(p+, rep, ·)` for a character class `p`. -/
def collapseRuns (p : Char → Bool) (rep : Char) : List Char → List Char
  | [] => []
  | c :: rest =>
    if p c then
      (match rest with
       | [] => [rep]
       | d :: _ =>
         if p d then collapseRuns p rep rest else rep :: collapseRuns p rep rest)
    else c :: collapseRuns p rep rest

/-- Python `re.sub(r"\s+", " ", ·)`. -/
def collapseWs (l : List Char) : List Char := collapseRuns pySpace ' ' l

/-- Substring containment on character lists (Python's `needle in hay`). -/
def lexHas (needle : List Char) : List Char → Bool
  | [] => needle.isEmpty
  | c :: t => needle.isPrefixOf (c :: t) || lexHas needle t

/-- Python `needle in hay` for strings. -/
def strHas (hay needle : String) : Bool := lexHas needle.data hay.data

/-- Strict lexicographic comparison of character lists by code point,
Python's `<` on strings. -/
def lexLt : List Char → List Char → Bool
  | [], [] => false
  | [], _ :: _ => true
  | _ :: _, [] => false
  | a :: as, b :: bs => a.toNat < b.toNat || (a = b && lexLt as bs)

/-- Python `a <= b` on strings (code-point lexicographic order). -/
def strLeB (a b : String) : Bool := !(lexLt b.data a.data)

/-! ## Exact fractions standing in for Python numbers -/

/-- An exact fraction: integer numerator over a positive natural
denominator.  Stands in for Python's int/float scalars; not kept in lowest
terms (value-level comparisons always cross-multiply). -/
structure Q where
  num : Int
  den : Nat
  dpos : 0 < den

instance : DecidableEq Q := fun a b =>
  decidable_of_iff (a.num = b.num ∧ a.den = b.den) (by
    cases a with
    | mk n d h =>
      cases b with
      | mk n2 d2 h2 =>
        constructor
        · rintro ⟨e1, e2⟩
          cases e1; cases e2; rfl
        · intro e
          cases e; exact ⟨rfl, rfl⟩)

/-- The fraction denoting an integer. -/
def qInt (n : Int) : Q := ⟨n, 1, by decide⟩

/-- Value of a `Q` as a rational number (proof-side semantics). -/
def toRat (q : Q) : ℚ := (q.num : ℚ) / (q.den : ℚ)

/-- Addition of fractions. -/
def qAdd (a b : Q) : Q :=
  ⟨a.num * (b.den : Int) + b.num * (a.den : Int), a.den * b.den,
   Nat.mul_pos a.dpos b.dpos⟩

/-- Multiplication of fractions. -/
def qMul (a b : Q) : Q := ⟨a.num * b.num, a.den * b.den, Nat.mul_pos a.dpos b.dpos⟩

/-- Division of fractions; division by a zero-valued fraction yields `0`
(the program only divides after guarding the divisor, see `rating_to5`). -/
def qDiv (a b : Q) : Q :=
  if h : 0 < b.num then
    ⟨a.num * (b.den : Int), a.den * b.num.toNat,
     Nat.mul_pos a.dpos (by omega)⟩
  else if h2 : b.num < 0 then
    ⟨-(a.num * (b.den : Int)), a.den * (-b.num).toNat,
     Nat.mul_pos a.dpos (by omega)⟩
  else qInt 0

/-- Division of a fraction by a natural number; `n = 0` yields `0` (the
program only divides by the length of a non-empty list). -/
def qDivNat (a : Q) (n : Nat) : Q :=
  if h : 0 < n then ⟨a.num, a.den * n, Nat.mul_pos a.dpos h⟩ else qInt 0

/-- Python `sum` over a list of numbers (starting from integer `0`). -/
def qSum (l : List Q) : Q := l.foldl qAdd (qInt 0)

/-- Value-level strict comparison of fractions. -/
def qLtB (a b : Q) : Bool := a.num * (b.den : Int) < b.num * (a.den : Int)

/-- Value-level equality of fractions (Python `==` on numbers). -/
def qEqB (a b : Q) : Bool := a.num * (b.den : Int) == b.num * (a.den : Int)

/-- Round `n / d` (with `d > 0`) to the nearest integer, ties to even:
the rounding mode of Python's `round`. -/
def roundHalfEven (n : Int) (d : Nat) : Int :=
  let f := Int.fdiv n (d : Int)
  let r2 := 2 * (n - f * (d : Int))
  if r2 < (d : Int) then f
  else if (d : Int) < r2 then f + 1
  else if f % 2 = 0 then f else f + 1

/-- Python `round(x, 3)` as exact decimal rounding (half to even). -/
def round3 (q : Q) : Q := ⟨roundHalfEven (q.num * 1000) q.den, 1000, by decide⟩

/-- A JSON scalar as stored in a numeric-or-absent field: absent/null, a
number, or some non-numeric value (carried as its string form). -/
inductive RVal where
  | null : RVal
  | num : Q → RVal
  | other : String → RVal

instance : DecidableEq RVal := fun a b =>
  match a, b with
  | RVal.null, RVal.null => isTrue rfl
  | RVal.null, RVal.num _ => isFalse (fun h => by cases h)
  | RVal.null, RVal.other _ => isFalse (fun h => by cases h)
  | RVal.num _, RVal.null => isFalse (fun h => by cases h)
  | RVal.num q1, RVal.num q2 =>
    if h : q1 = q2 then isTrue (by rw [h]) else
      isFalse (fun e => h (by injection e))
  | RVal.num _, RVal.other _ => isFalse (fun h => by cases h)
  | RVal.other _, RVal.null => isFalse (fun h => by cases h)
  | RVal.other _, RVal.num _ => isFalse (fun h => by cases h)
  | RVal.other s1, RVal.other s2 =>
    if h : s1 = s2 then isTrue (by rw [h]) else
      isFalse (fun e => h (by injection e))

/-- Python `x is not None` for an `RVal` field. -/
def rvPresent : RVal → Bool
  | RVal.null => false
  | _ => true

/-! ## Stable sorting (Python `sorted` / `list.sort`) -/

/-- Insert `x` into `l`, before the first element `y` with `le x y`. -/
def insertLe (le : α → α → Bool) (x : α) : List α → List α
  | [] => [x]
  | y :: ys => if le x y then x :: y :: ys else y :: insertLe le x ys

/-- Stable insertion sort.  For a total preorder `le` this computes the
same list as any stable sort, in particular CPython's. -/
def insertionSort (le : α → α → Bool) : List α → List α
  | [] => []
  | x :: xs => insertLe le x (insertionSort le xs)

/-- Ascending code-point sort of strings, Python `sorted(list_of_str)`. -/
def sortStrings (l : List String) : List String := insertionSort strLeB l

/-! ## Input data model (one parsed source document) -/

/-- A platform profile record of an office. -/
structure Profile where
  platform : String
  source_url : String

/-- A raw review record as found in a source document. -/
structure Review where
  platform : String
  review_id : String
  author_name : String
  rating_value : RVal
  rating_scale : RVal
  date_published : String
  date_raw : String
  review_text : String
  source_url : String
  sentiment_label : String
  sentiment_score : RVal

/-- An office record of a source document. -/
structure OfficeIn where
  city : String
  address : String
  platform_profiles : List Profile
  reviews : List Review

/-- A firm record of a source document. -/
structure FirmIn where
  firm_name : String
  website : String
  firm_id : String
  offices : List OfficeIn

/-- One parsed source document (`ds.get("firms", [])`). -/
structure Dataset where
  firms : List FirmIn

/-! ## Identity keyer and record normalizer -/

/-- Python `norm_platform`: case-insensitive substring match onto the
fixed platform names. -/
def norm_platform (p : String) : String :=
  if p = "" then "Other"
  else
    let x := pyLower p
    if strHas x "google" then "Google Maps"
    else if strHas x "firmy" then "Firmy.cz"
    else if strHas x "facebook" then "Facebook"
    else "Other"

/-- NFKD decomposition followed by removal of combining marks, modelled as
a base-letter table over the Latin letters with diacritics used by the
repository's data; characters outside the table are unchanged. -/
def nfkdBase (c : Char) : Char :=
  match c with
  | 'á' | 'à' | 'â' | 'ä' | 'å' | 'ã' => 'a'
  | 'Á' | 'À' | 'Â' | 'Ä' | 'Å' | 'Ã' => 'A'
  | 'č' | 'ç' | 'ć' => 'c'
  | 'Č' | 'Ç' | 'Ć' => 'C'
  | 'ď' => 'd'
  | 'Ď' => 'D'
  | 'é' | 'ě' | 'è' | 'ê' | 'ë' => 'e'
  | 'É' | 'Ě' | 'È' | 'Ê' | 'Ë' => 'E'
  | 'í' | 'ì' | 'î' | 'ï' => 'i'
  | 'Í' | 'Ì' | 'Î' | 'Ï' => 'I'
  | 'ĺ' | 'ľ' => 'l'
  | 'Ĺ' | 'Ľ' => 'L'
  | 'ň' | 'ñ' | 'ń' => 'n'
  | 'Ň' | 'Ñ' | 'Ń' => 'N'
  | 'ó' | 'ò' | 'ô' | 'ö' | 'õ' => 'o'
  | 'Ó' | 'Ò' | 'Ô' | 'Ö' | 'Õ' => 'O'
  | 'ř' | 'ŕ' => 'r'
  | 'Ř' | 'Ŕ' => 'R'
  | 'š' | 'ś' => 's'
  | 'Š' | 'Ś' => 'S'
  | 'ť' => 't'
  | 'Ť' => 'T'
  | 'ú' | 'ů' | 'ù' | 'û' | 'ü' => 'u'
  | 'Ú' | 'Ů' | 'Ù' | 'Û' | 'Ü' => 'U'
  | 'ý' | 'ÿ' => 'y'
  | 'Ý' => 'Y'
  | 'ž' | 'ź' | 'ż' => 'z'
  | 'Ž' | 'Ź' | 'Ż' => 'Z'
  | _ => c

/-- Is `c` an ASCII letter or digit (the class `[a-zA-Z0-9]`)? -/
def isAsciiAlnum (c : Char) : Bool :=
  (48 ≤ c.toNat ∧ c.toNat ≤ 57) ∨ (65 ≤ c.toNat ∧ c.toNat ≤ 90) ∨
    (97 ≤ c.toNat ∧ c.toNat ≤ 122)

/-- Python `slugify`: strip diacritics, collapse non-alphanumeric runs to
a single hyphen, trim hyphens, lowercase, collapse hyphen runs; empty
result becomes `"unknown"`. -/
def slugify (s : String) : String :=
  let s1 := s.data.map nfkdBase
  let s2 := collapseRuns (fun c => !(isAsciiAlnum c)) '-' s1
  let s3 := stripEnds (fun c => c = '-') s2
  let s4 := (pyLower (String.mk s3)).data
  let s5 := String.mk (collapseRuns (fun c => c = '-') '-' s4)
  if s5 = "" then "unknown" else s5

/-- Python `firm_key`: keyed by trimmed lowercased website when
non-empty, else by whitespace-collapsed lowercased firm name. -/
def firm_key (f : FirmIn) : String :=
  let w := pyLower (pyStrip f.website)
  if w ≠ "" then "w:" ++ w
  else "n:" ++ String.mk (collapseWs (pyLower (pyStrip f.firm_name)).data)

/-- Python `office_key`: city and address, trimmed and lowercased, with
the documented fallbacks. -/
def office_key (o : OfficeIn) : String :=
  let city := pyLower (pyStrip o.city)
  let addr := pyLower (pyStrip o.address)
  if city ≠ "" ∧ addr ≠ "" then city ++ "|" ++ addr
  else if city ≠ "" then city
  else if addr ≠ "" then "addr:" ++ addr
  else "unknown"

/-- Python `norm_text`: strip, collapse whitespace runs, lowercase. -/
def norm_text (t : String) : String :=
  pyLower (String.mk (collapseWs (pyStrip t).data))

/-- Stand-in for `hashlib.sha1(s.encode()).hexdigest()`: an injective
fingerprint of the input (hash collisions are outside the model). -/
def sha1_hexdigest (s : String) : String := "#" ++ s

/-- String form of a numeric-or-absent field inside the dedup key
(Python `"" if v is None else str(v)`); the decimal rendering of numbers
is abstracted by an injective encoding of the fraction. -/
def rvalStr : RVal → String
  | RVal.null => ""
  | RVal.num q => toString q.num ++ "d" ++ toString q.den
  | RVal.other s => s

/-- Python `review_dedupe_key`. -/
def review_dedupe_key (r : Review) : String :=
  let plat := norm_platform r.platform
  if r.review_id ≠ "" then plat ++ "|rid:" ++ r.review_id
  else
    let author := norm_text r.author_name
    let dp := r.date_published
    let dr := r.date_raw
    let rv := rvalStr r.rating_value
    let rs := rvalStr r.rating_scale
    let text := norm_text r.review_text
    let url := norm_text r.source_url
    let h := if text ≠ "" then sha1_hexdigest text else "no_text"
    let uh := if url ≠ "" then sha1_hexdigest url else "no_url"
    plat ++ "|a:" ++ author ++ "|dp:" ++ dp ++ "|dr:" ++ dr ++ "|r:" ++ rv ++ "/"
      ++ rs ++ "|t:" ++ h ++ "|u:" ++ uh

/-- Python `completeness_score`: the sequential accumulation from the
source, one conditional increment per field. -/
def completeness_score (r : Review) : Nat :=
  let s : Nat := 0
  let s := if r.review_id ≠ "" then s + 4 else s
  let s := if r.date_published ≠ "" then s + 2 else s
  let s := if rvPresent r.rating_value && rvPresent r.rating_scale then s + 2 else s
  let s := if pyStrip r.review_text ≠ "" then s + 2 else s
  let s := if r.author_name ≠ "" then s + 1 else s
  let s := if r.source_url ≠ "" then s + 1 else s
  s

/-- Python `normalize_review`: copy with normalized platform. -/
def normalize_review (r : Review) : Review := { r with platform := norm_platform r.platform }

/-- Python `normalize_profile`. -/
def normalize_profile (p : Profile) : Profile :=
  { platform := norm_platform p.platform, source_url := p.source_url }

/-! ## Merge engine

Python dicts keyed by derived strings are modelled as insertion-ordered
association lists; `storeBack` is `d[k] = v` (update the existing entry in
place, else append), `alookup` is `d.get(k)`. -/

/-- Dictionary lookup, first matching key. -/
def alookup (k : String) : List (String × α) → Option α
  | [] => none
  | (k2, v) :: t => if k2 = k then some v else alookup k t

/-- Dictionary store `d[k] = v`: replace the first entry with key `k`,
else append a fresh entry (Python dicts keep the key's position). -/
def storeBack (k : String) (v : α) : List (String × α) → List (String × α)
  | [] => [(k, v)]
  | p :: t => if p.1 = k then (k, v) :: t else p :: storeBack k v t

/-- Python `set.add` on a set modelled as a duplicate-free list in
insertion order (iteration order never matters where sets are used). -/
def setAdd (l : List String) (x : String) : List String :=
  if l.any (fun y => y = x) then l else l ++ [x]

/-- The in-memory office entry built during a merge run. -/
structure MOffice where
  city : String
  address : String
  platform_profiles : List Profile
  reviews_map : List (String × Review)

/-- The in-memory firm entry built during a merge run. -/
structure MFirm where
  firm_name : String
  website : String
  firm_ids : List String
  offices : List (String × MOffice)

/-- One iteration of the review loop of `merge_datasets` (lines 148-152):
normalize, key, and insert-or-replace by strictly higher completeness. -/
def step_review (rm : List (String × Review)) (r : Review) : List (String × Review) :=
  let nr := normalize_review r
  let k := review_dedupe_key nr
  match alookup k rm with
  | none => storeBack k nr rm
  | some old =>
    if completeness_score old < completeness_score nr then storeBack k nr rm else rm

/-- One iteration of the office loop of `merge_datasets` (lines 128-152). -/
def step_office (offices : List (String × MOffice)) (o : OfficeIn) :
    List (String × MOffice) :=
  let ok := office_key o
  let mo :=
    match alookup ok offices with
    | some v => v
    | none => { city := o.city, address := o.address, platform_profiles := [], reviews_map := [] }
  let mo := if mo.city = "" ∧ o.city ≠ "" then { mo with city := o.city } else mo
  let mo := if mo.address = "" ∧ o.address ≠ "" then { mo with address := o.address } else mo
  let mo :=
    { mo with
      platform_profiles :=
        o.platform_profiles.foldl
          (fun pps pp =>
            let npp := normalize_profile pp
            if npp.source_url ≠ "" then pps ++ [npp] else pps)
          mo.platform_profiles }
  let mo := { mo with reviews_map := o.reviews.foldl step_review mo.reviews_map }
  storeBack ok mo offices

/-- One iteration of the firm loop of `merge_datasets` (lines 111-152). -/
def step_firm (m : List (String × MFirm)) (f : FirmIn) : List (String × MFirm) :=
  let fk := firm_key f
  let mf :=
    match alookup fk m with
    | some v => v
    | none =>
      { firm_name := f.firm_name, website := f.website,
        firm_ids := if f.firm_id ≠ "" then [f.firm_id] else [], offices := [] }
  let mf :=
    if f.firm_name ≠ "" ∧ (mf.firm_name = "" ∨ mf.firm_name.length < f.firm_name.length)
    then { mf with firm_name := f.firm_name } else mf
  let mf := if mf.website = "" ∧ f.website ≠ "" then { mf with website := f.website } else mf
  let mf := if f.firm_id ≠ "" then { mf with firm_ids := setAdd mf.firm_ids f.firm_id } else mf
  let mf := { mf with offices := f.offices.foldl step_office mf.offices }
  storeBack fk mf m

/-- The firms index after folding all sources in order (the first loop of
`merge_datasets`). -/
def merge_index (datasets : List (String × Dataset)) : List (String × MFirm) :=
  datasets.foldl (fun m sds => sds.2.firms.foldl step_firm m) []

/-! ## Dataset finalizer -/

/-- Python `re.sub(r"^https?://", "", w).split("/")[0]`. -/
def host_of (w : String) : String :=
  let l :=
    if "https://".data.isPrefixOf w.data then w.data.drop 8
    else if "http://".data.isPrefixOf w.data then w.data.drop 7
    else w.data
  String.mk (l.takeWhile (fun c => c ≠ '/'))

/-- Ascending order on the Python sort key `(len(x), x)` used for the
firm-id candidates. -/
def idLe (a b : String) : Bool :=
  a.length < b.length || (a.length == b.length && strLeB a b)

/-- A platform profile list deduplicated by `(platform, source_url)` in
first-seen order, keeping only profiles with a source url (lines 169-176). -/
def dedup_profiles (l : List Profile) : List Profile :=
  (l.foldl
    (fun (sp : List (String × String) × List Profile) pp =>
      let key := (pp.platform, pp.source_url)
      if sp.1.any (fun k2 => k2 = key) then sp
      else if pp.source_url ≠ "" then (sp.1 ++ [key], sp.2 ++ [pp]) else sp)
    ([], [])).2

/-- An exported office: Python emits `city`/`address` keys only when
non-empty; here the fields always exist with `""` for an omitted key. -/
structure OfficeOut where
  city : String
  address : String
  platform_profiles : List Profile
  reviews : List Review

/-- Python per-firm `collection_summary`. -/
structure CollectionSummary where
  reviews_collected_total : Nat
  platforms_used : List String
  cities_covered : List String
  warnings : List String

/-- An exported firm (`website` is `""` when the Python dict omits it). -/
structure FirmOut where
  firm_id : String
  firm_name : String
  website : String
  offices : List OfficeOut
  collection_summary : CollectionSummary

/-- Python `dataset_quality`. -/
structure DatasetQuality where
  firms_collected : Nat
  reviews_collected : Nat
  firms_below_min_reviews : List String
  known_limitations : List String

/-- Accumulator of the office loop of the finalizer (lines 164-189). -/
structure FinState where
  offices_out : List OfficeOut
  cities : List String
  platforms : List String
  reviews_total : Nat

/-- One iteration of the finalizer's office loop. -/
def fin_office (st : FinState) (ko : String × MOffice) : FinState :=
  let o := ko.2
  let pps := dedup_profiles o.platform_profiles
  let reviews := o.reviews_map.map (fun p => p.2)
  let platforms :=
    reviews.foldl (fun ps r => if r.platform ≠ "" then setAdd ps r.platform else ps)
      st.platforms
  let cities := if o.city ≠ "" then setAdd st.cities o.city else st.cities
  { offices_out := st.offices_out ++
      [{ city := o.city, address := o.address, platform_profiles := pps,
         reviews := reviews }],
    cities := cities, platforms := platforms,
    reviews_total := st.reviews_total + reviews.length }

def REVIEWS_PER_FIRM_MIN : Nat := 10

/-- The body of the finalizer loop of `merge_datasets` (lines 154-207):
choose the stable `firm_id`, export the offices, and compute the
per-firm collection summary. -/
def finalize_firm (f : MFirm) : FirmOut :=
  let base :=
    if f.website ≠ "" then slugify (host_of f.website)
    else slugify (if f.firm_name ≠ "" then f.firm_name else "unknown")
  let fid_candidates := f.firm_ids.filter (fun x => x ≠ "")
  let firm_id :=
    match insertionSort idLe fid_candidates with
    | [] => base
    | x :: _ => x
  let st := f.offices.foldl fin_office ⟨[], [], [], 0⟩
  { firm_id := firm_id, firm_name := f.firm_name, website := f.website,
    offices := st.offices_out,
    collection_summary :=
      { reviews_collected_total := st.reviews_total,
        platforms_used := sortStrings st.platforms,
        cities_covered := sortStrings st.cities,
        warnings :=
          if st.reviews_total = 0 then ["No reviews present in merged sources."] else [] } }

/-- Python `merge_datasets`: fold the ordered sources into the index,
finalize every firm, and compute the run-wide dataset quality. -/
def merge_datasets (datasets : List (String × Dataset)) :
    List FirmOut × DatasetQuality :=
  let merged_firms := (merge_index datasets).map (fun p => finalize_firm p.2)
  let dataset_quality : DatasetQuality :=
    { firms_collected := merged_firms.length,
      reviews_collected :=
        (merged_firms.map (fun x => x.collection_summary.reviews_collected_total)).sum,
      firms_below_min_reviews :=
        ((merged_firms.filter
            (fun x => x.collection_summary.reviews_collected_total < REVIEWS_PER_FIRM_MIN)).map
          (fun x => x.firm_id)),
      known_limitations :=
        ["Merged from provided JSON sources; public review availability varies widely by firm."] }
  (merged_firms, dataset_quality)

/-! ## Rating conversion and theme classifier -/

/-- Python `rating_to5`: `(value/scale)*5` when both are numeric and the
scale is non-zero (truthy), else no rating. -/
def rating_to5 (r : Review) : Option Q :=
  match r.rating_value, r.rating_scale with
  | RVal.num v, RVal.num s => if s.num ≠ 0 then some (qMul (qDiv v s) (qInt 5)) else none
  | _, _ => none

/-- The fixed keyword taxonomy `TAX`, in declaration order. -/
def TAX : List (String × List String) :=
  [("communication_responsiveness",
    ["komunik", "neodpov", "email", "telefon", "call", "reply", "respond", "dovolat"]),
   ("professionalism_competence",
    ["profesion", "expert", "kvalit", "professionals", "excellent", "brilliant",
     "neprofesion", "lajd"]),
   ("ethics_trust",
    ["etika", "ethic", "nefér", "podvod", "lži", "lies", "slander", "dirty", "zneuž",
     "zatajuj", "neserióz", "without ethics"]),
   ("fees_value_transparency",
    ["cena", "náklad", "cost", "fees", "price", "záloha", "prachy", "peníze", "value",
     "finance", "majetek"]),
   ("speed_timeliness",
    ["rychl", "fast", "delay", "zpožd", "roky", "late", "pozd", "nikam se nepohnul"]),
   ("outcome_effectiveness",
    ["vyřeš", "solution", "help", "pomoc", "nepomoh", "result", "success",
     "spravedlnost", "pokrok"]),
   ("empathy_human_approach",
    ["přístup", "human", "arrog", "arogant", "poniž", "zesměš", "unpleasant",
     "reception"]),
   ("enforcement_debt_mass_mail",
    ["dluh", "vymáh", "exekuc", "pojist", "předžalob", "automatiz", "picrights",
     "copyright", "mass", "threat"])]

/-- Python `categorize`: normalized-text keyword matching, matched
categories in taxonomy order, truncated to at most 3; empty text yields
no categories. -/
def categorize (text : String) : List String :=
  let t := norm_text text
  if t = "" then []
  else
    (((TAX.filter (fun ck => ck.2.any (fun kw => strHas t (pyLower kw)))).map
        (fun ck => ck.1)).take 3)

/-! ## Analysis engine -/

/-- Python `r.get("sentiment_label") or "unknown"`. -/
def sentiment_label_of (r : Review) : String :=
  if r.sentiment_label ≠ "" then r.sentiment_label else "unknown"

/-- The sentiment score where it is numeric (`isinstance(..., (int, float))`). -/
def sentiment_score_of (r : Review) : Option Q :=
  match r.sentiment_score with
  | RVal.num q => some q
  | _ => none

/-- Counter increment `c[lab] += 1` on an insertion-ordered counter. -/
def cIncr (m : List (String × Nat)) (k : String) : List (String × Nat) :=
  match m with
  | [] => [(k, 1)]
  | p :: t => if p.1 = k then (p.1, p.2 + 1) :: t else p :: cIncr t k

/-- All reviews of a firm, offices flattened in order. -/
def firm_reviews (f : FirmOut) : List Review := (f.offices.map (fun o => o.reviews)).flatten

/-- Python per-firm statistics record. -/
structure FirmStat where
  firm_id : String
  firm_name : String
  reviews_n : Nat
  ratings_n : Nat
  avg_rating_5 : Option Q
  scored_n : Nat
  avg_sentiment_score : Option Q

/-- The per-firm statistics block of `build_analysis` (lines 296-304). -/
def firm_stat (f : FirmOut) : FirmStat :=
  let reviews := firm_reviews f
  let ratings := reviews.filterMap rating_to5
  let sentiments := reviews.filterMap sentiment_score_of
  { firm_id := f.firm_id, firm_name := f.firm_name,
    reviews_n := reviews.length, ratings_n := ratings.length,
    avg_rating_5 :=
      if ratings.length ≠ 0 then some (qDivNat (qSum ratings) ratings.length) else none,
    scored_n := sentiments.length,
    avg_sentiment_score :=
      if sentiments.length ≠ 0 then some (qDivNat (qSum sentiments) sentiments.length)
      else none }

/-- Per-firm statistics for all firms, in firm order. -/
def firm_stats (firms : List FirmOut) : List FirmStat := firms.map firm_stat

/-- Ascending order on the ranking sort key `(-avg, -n, name)` used by
both rankings (its non-strict version; the stable sort then reproduces
Python's `list.sort(key=...)` exactly). -/
def rankKeyLe (av bv : Q) (an bn : Nat) (aname bname : String) : Bool :=
  if !(qEqB av bv) then qLtB bv av
  else if an ≠ bn then decide (bn < an)
  else strLeB aname bname

/-- The rating-ranking comparison (key `(-avg_rating_5, -ratings_n,
firm_name)`); the filter guarantees the averages exist, so the `getD`
default is never consulted. -/
def leRating (a b : FirmStat) : Bool :=
  rankKeyLe (a.avg_rating_5.getD (qInt 0)) (b.avg_rating_5.getD (qInt 0))
    a.ratings_n b.ratings_n a.firm_name b.firm_name

/-- The sentiment-ranking comparison (key `(-avg_sentiment_score,
-scored_n, firm_name)`). -/
def leSent (a b : FirmStat) : Bool :=
  rankKeyLe (a.avg_sentiment_score.getD (qInt 0)) (b.avg_sentiment_score.getD (qInt 0))
    a.scored_n b.scored_n a.firm_name b.firm_name

/-- Membership filter of the rating ranking (line 306). -/
def qualRating (x : FirmStat) : Bool := 3 ≤ x.ratings_n && x.avg_rating_5.isSome

/-- Membership filter of the sentiment ranking (line 309). -/
def qualSent (x : FirmStat) : Bool := 3 ≤ x.scored_n && x.avg_sentiment_score.isSome

/-- The sorted rating ranking before truncation (lines 306-307). -/
def rank_by_rating (stats : List FirmStat) : List FirmStat :=
  insertionSort leRating (stats.filter qualRating)

/-- The sorted sentiment ranking before truncation (lines 309-310). -/
def rank_by_sent (stats : List FirmStat) : List FirmStat :=
  insertionSort leSent (stats.filter qualSent)

/-- An entry of `rankings.by_avg_rating_5`. -/
structure RankEntryR where
  firm_id : String
  firm_name : String
  avg_rating_5 : Q
  ratings_n : Nat
  reviews_n : Nat

/-- An entry of `rankings.by_avg_sentiment_score`. -/
structure RankEntryS where
  firm_id : String
  firm_name : String
  avg_sentiment_score : Q
  scored_n : Nat
  reviews_n : Nat

/-- The exported rating-ranking entry of a firm stat (lines 324-331). -/
def mkEntryR (x : FirmStat) : RankEntryR :=
  { firm_id := x.firm_id, firm_name := x.firm_name,
    avg_rating_5 := round3 (x.avg_rating_5.getD (qInt 0)),
    ratings_n := x.ratings_n, reviews_n := x.reviews_n }

/-- The exported sentiment-ranking entry of a firm stat (lines 334-341). -/
def mkEntryS (x : FirmStat) : RankEntryS :=
  { firm_id := x.firm_id, firm_name := x.firm_name,
    avg_sentiment_score := round3 (x.avg_sentiment_score.getD (qInt 0)),
    scored_n := x.scored_n, reviews_n := x.reviews_n }

/-- `rankings.by_avg_rating_5`: top 30 of the sorted, filtered stats. -/
def by_avg_rating_5 (stats : List FirmStat) : List RankEntryR :=
  ((rank_by_rating stats).take 30).map mkEntryR

/-- `rankings.by_avg_sentiment_score`: top 30 of the sorted, filtered stats. -/
def by_avg_sentiment_score (stats : List FirmStat) : List RankEntryS :=
  ((rank_by_sent stats).take 30).map mkEntryS

/-- The `coverage` block of the analysis. -/
structure Coverage where
  firms_total : Nat
  reviews_total : Nat
  reviews_with_text : Nat
  reviews_with_rating : Nat
  platforms_used : List String
  cities_covered : List String

/-- The analysis report; the `themes_overall`, `themes_by_firm` and
representative-quote blocks of the source are not modelled (no claim
concerns them). -/
structure Analysis where
  coverage : Coverage
  by_avg_rating_5 : List RankEntryR
  by_avg_sentiment_score : List RankEntryS
  sentiment_distribution : List (String × Nat)
  limitations : List String

/-- Python `build_analysis` (the parts consumed by the claims): per-firm
stats, the two rankings, the global sentiment distribution and the
coverage block. -/
def build_analysis (merged_firms : List FirmOut) (dq : DatasetQuality)
    (skipped : List String) : Analysis :=
  let stats := firm_stats merged_firms
  let sentiment_dist :=
    merged_firms.foldl
      (fun c f => (firm_reviews f).foldl (fun c2 r => cIncr c2 (sentiment_label_of r)) c)
      []
  let all_reviews := (merged_firms.map firm_reviews).flatten
  { coverage :=
      { firms_total := dq.firms_collected,
        reviews_total := dq.reviews_collected,
        reviews_with_text := all_reviews.countP (fun r => pyStrip r.review_text ≠ ""),
        reviews_with_rating := all_reviews.countP (fun r => (rating_to5 r).isSome),
        platforms_used :=
          sortStrings
            (all_reviews.foldl
              (fun ps r => if r.platform ≠ "" then setAdd ps r.platform else ps) []),
        cities_covered :=
          sortStrings
            (((merged_firms.map (fun f => f.offices)).flatten).foldl
              (fun cs o => if o.city ≠ "" then setAdd cs o.city else cs) []) },
    by_avg_rating_5 := by_avg_rating_5 stats,
    by_avg_sentiment_score := by_avg_sentiment_score stats,
    sentiment_distribution := sentiment_dist,
    limitations :=
      skipped.map (fun x => "Skipped invalid JSON input: " ++ x) ++
        ["Most firms have limited or zero publicly captured reviews in the provided inputs; rankings may be unstable for low n."] }

/-! ## Derived predicates and concrete test fixtures -/

/-- Every office entry of the list has pairwise-distinct review dedup
keys in its review map. -/
def office_maps_nodup (offices : List (String × MOffice)) : Prop :=
  ∀ p ∈ offices, (p.2.reviews_map.map Prod.fst).Nodup

/-- Every firm of the index satisfies `office_maps_nodup`. -/
def index_reviews_nodup (m : List (String × MFirm)) : Prop :=
  ∀ p ∈ m, office_maps_nodup p.2.offices

/-- Total number of tallies in a sentiment counter. -/
def sumCounts (m : List (String × Nat)) : Nat := (m.map (fun p => p.2)).sum

/-- A well-formed slug: non-empty, only lowercase ASCII alphanumerics and
hyphens, no leading/trailing hyphen, no two adjacent hyphens. -/
def slugClean (s : String) : Prop :=
  s ≠ "" ∧ (∀ c ∈ s.data, c = '-' ∨ ((48 ≤ c.toNat ∧ c.toNat ≤ 57) ∨ (97 ≤ c.toNat ∧ c.toNat ≤ 122)))
    ∧ s.data.Chain' (fun a b => ¬(a = '-' ∧ b = '-'))
    ∧ s.data.head? ≠ some '-' ∧ s.data.getLast? ≠ some '-'

/-- A rated review used by the ranking fixtures: full 5-of-5 rating,
deduplicated by an explicit review id. -/
def mkRev31 (id : String) : Review :=
  { platform := "", review_id := id, author_name := "",
    rating_value := RVal.num ⟨5, 1, by decide⟩,
    rating_scale := RVal.num ⟨5, 1, by decide⟩, date_published := "", date_raw := "",
    review_text := "", source_url := "", sentiment_label := "", sentiment_score := RVal.null }

/-- Firm names `"f01"`, ..., `"f31"` (two fixed digits, so that the
lexicographic and the numeric order agree). -/
def nm31 (i : Nat) : String :=
  String.mk ['f', Char.ofNat (48 + (i + 1) / 10), Char.ofNat (48 + (i + 1) % 10)]

/-- The `i`-th fixture firm: one office carrying three distinct rated
reviews, so the firm has exactly 3 rated reviews. -/
def mkFirm31 (i : Nat) : FirmIn :=
  { firm_name := nm31 i, website := "", firm_id := "",
    offices := [{ city := "", address := "", platform_profiles := [],
                  reviews := [mkRev31 "a", mkRev31 "b", mkRev31 "c"] }] }

/-- A source document with 31 firms, every one carrying exactly 3 rated
reviews: more qualifying firms than the top-30 ranking cap. -/
def ds31 : Dataset := ⟨(List.range 31).map mkFirm31⟩

/-- A review rated 4 on a 5-scale (ranking witness fixture). -/
def wRev4 : Review :=
  { platform := "Google Maps", review_id := "x", author_name := "A",
    rating_value := RVal.num ⟨4, 1, by decide⟩,
    rating_scale := RVal.num ⟨5, 1, by decide⟩, date_published := "2024-01-01",
    date_raw := "", review_text := "Great service", source_url := "",
    sentiment_label := "positive", sentiment_score := RVal.null }

/-- A finalized firm with three rated reviews (ranking witness fixture). -/
def wF4 : FirmOut :=
  { firm_id := "acme", firm_name := "Acme", website := "",
    offices := [{ city := "", address := "", platform_profiles := [],
                  reviews := [wRev4, wRev4, wRev4] }],
    collection_summary := ⟨3, [], [], []⟩ }

/-- A merged firm carrying external ids (firm-id witness fixture). -/
def wMF5 : MFirm :=
  { firm_name := "Kancelar", website := "", firm_ids := ["abcd", "xy", "zz"],
    offices := [] }

/-- A review with a numeric 4-of-5 rating (conversion witness fixture). -/
def wRev6 : Review :=
  { platform := "", review_id := "", author_name := "",
    rating_value := RVal.num ⟨4, 1, by decide⟩,
    rating_scale := RVal.num ⟨5, 1, by decide⟩, date_published := "", date_raw := "",
    review_text := "", source_url := "", sentiment_label := "", sentiment_score := RVal.null }

/-- A review whose rating scale is zero (conversion fixture). -/
def wRev6z : Review :=
  { platform := "", review_id := "", author_name := "",
    rating_value := RVal.num ⟨4, 1, by decide⟩,
    rating_scale := RVal.num ⟨0, 1, by decide⟩, date_published := "", date_raw := "",
    review_text := "", source_url := "", sentiment_label := "", sentiment_score := RVal.null }

/-- Source-A office for the merge-order fixture: mixed-case city and
address, same office key as its B counterpart. -/
def oA8 : OfficeIn := { city := "Praha", address := "Main 1", platform_profiles := [], reviews := [] }

/-- Source-B office for the merge-order fixture. -/
def oB8 : OfficeIn := { city := "PRAHA", address := "MAIN 1", platform_profiles := [], reviews := [] }

/-! ## Lemmas about the association-list dictionary operations -/

theorem alookup_storeBack_self (k : String) (v : α) (m : List (String × α)) :
    alookup k (storeBack k v m) = some v := by
  induction m with
  | nil => simp [alookup, storeBack]
  | cons p t ih =>
    by_cases h : p.1 = k
    · simp [storeBack, alookup, h]
    · simp [storeBack, alookup, h, ih]

theorem alookup_storeBack_ne (k k2 : String) (v : α) (m : List (String × α))
    (h : k2 ≠ k) : alookup k2 (storeBack k v m) = alookup k2 m := by
  have h2 : ¬(k = k2) := fun e => h e.symm
  induction m with
  | nil => simp [alookup, storeBack, h2]
  | cons p t ih =>
    by_cases hp : p.1 = k
    · subst hp
      have h3 : ¬(p.1 = k2) := fun e => h2 (e.symm ▸ rfl)
      simp [storeBack, alookup, h3]
    · simp only [storeBack, if_neg hp, alookup]
      rw [ih]

theorem alookup_none_not_mem (k : String) (m : List (String × α))
    (h : alookup k m = none) : k ∉ m.map Prod.fst := by
  induction m with
  | nil => simp
  | cons p t ih =>
    simp only [alookup] at h
    by_cases hp : p.1 = k
    · rw [if_pos hp] at h
      cases h
    · rw [if_neg hp] at h
      simp only [List.map_cons, List.mem_cons]
      rintro (e | e)
      · exact hp e.symm
      · exact ih h e

theorem storeBack_fst_some (k : String) (v : α) (m : List (String × α))
    (h : (alookup k m).isSome) :
    (storeBack k v m).map Prod.fst = m.map Prod.fst := by
  induction m with
  | nil => simp [alookup] at h
  | cons p t ih =>
    by_cases hp : p.1 = k
    · simp [storeBack, hp]
    · simp only [alookup, if_neg hp] at h
      simp only [storeBack, if_neg hp, List.map_cons]
      rw [ih h]

theorem storeBack_fst_none (k : String) (v : α) (m : List (String × α))
    (h : alookup k m = none) :
    (storeBack k v m).map Prod.fst = m.map Prod.fst ++ [k] := by
  induction m with
  | nil => simp [storeBack]
  | cons p t ih =>
    simp only [alookup] at h
    by_cases hp : p.1 = k
    · rw [if_pos hp] at h
      cases h
    · rw [if_neg hp] at h
      simp only [storeBack, if_neg hp, List.map_cons, List.cons_append]
      rw [ih h]

theorem storeBack_keys_nodup (k : String) (v : α) (m : List (String × α))
    (h : (m.map Prod.fst).Nodup) : ((storeBack k v m).map Prod.fst).Nodup := by
  cases hlk : alookup k m with
  | none =>
    rw [storeBack_fst_none k v m hlk]
    simp only [List.nodup_append, List.nodup_cons, List.nodup_nil]
    refine ⟨h, ⟨by simp, trivial⟩, ?_⟩
    intro a ha hb
    simp only [List.mem_singleton] at hb
    exact alookup_none_not_mem k m hlk (hb ▸ ha)
  | some w =>
    rw [storeBack_fst_some k v m (by simp [hlk])]
    exact h

theorem storeBack_mem (k : String) (v : α) (m : List (String × α))
    (p : String × α) (h : p ∈ storeBack k v m) : p = (k, v) ∨ p ∈ m := by
  induction m with
  | nil =>
    simp only [storeBack, List.mem_singleton] at h
    exact Or.inl h
  | cons q t ih =>
    by_cases hq : q.1 = k
    · simp only [storeBack, if_pos hq] at h
      rcases List.mem_cons.mp h with h1 | h1
      · exact Or.inl h1
      · exact Or.inr (List.mem_cons_of_mem q h1)
    · simp only [storeBack, if_neg hq] at h
      rcases List.mem_cons.mp h with h1 | h1
      · exact Or.inr (by simp [h1])
      · rcases ih h1 with h2 | h2
        · exact Or.inl h2
        · exact Or.inr (List.mem_cons_of_mem q h2)

theorem alookup_mem (k : String) (m : List (String × α)) (v : α)
    (h : alookup k m = some v) : (k, v) ∈ m := by
  induction m with
  | nil => cases h
  | cons p t ih =>
    simp only [alookup] at h
    by_cases hp : p.1 = k
    · rw [if_pos hp] at h
      cases p with
      | mk a b =>
        simp only at hp
        subst hp
        cases h
        exact List.mem_cons_self _ _
    · rw [if_neg hp] at h
      exact List.mem_cons_of_mem p (ih h)

/-! ## The review dedup step and the per-key uniqueness invariant -/

theorem step_review_alookup (rm : List (String × Review)) (r : Review) (k2 : String) :
    alookup k2 (step_review rm r) =
      if k2 = review_dedupe_key (normalize_review r) then
        some (match alookup k2 rm with
              | none => normalize_review r
              | some old =>
                if completeness_score old < completeness_score (normalize_review r) then
                  normalize_review r
                else old)
      else alookup k2 rm := by
  by_cases hk : k2 = review_dedupe_key (normalize_review r)
  · rw [if_pos hk, hk]
    simp only [step_review]
    cases hlk : alookup (review_dedupe_key (normalize_review r)) rm with
    | none => simp [hlk, alookup_storeBack_self]
    | some old =>
      simp only [hlk]
      by_cases hc : completeness_score old < completeness_score (normalize_review r)
      · rw [if_pos hc, if_pos hc, alookup_storeBack_self]
      · rw [if_neg hc, if_neg hc, hlk]
  · rw [if_neg hk]
    simp only [step_review]
    cases hlk : alookup (review_dedupe_key (normalize_review r)) rm with
    | none =>
      simp only [hlk]
      exact alookup_storeBack_ne _ _ _ _ hk
    | some old =>
      simp only [hlk]
      by_cases hc : completeness_score old < completeness_score (normalize_review r)
      · rw [if_pos hc]
        exact alookup_storeBack_ne _ _ _ _ hk
      · rw [if_neg hc]

theorem step_review_keys_nodup (rm : List (String × Review)) (r : Review)
    (h : (rm.map Prod.fst).Nodup) : ((step_review rm r).map Prod.fst).Nodup := by
  simp only [step_review]
  cases hlk : alookup (review_dedupe_key (normalize_review r)) rm with
  | none =>
    simp only [hlk]
    exact storeBack_keys_nodup _ _ _ h
  | some old =>
    simp only [hlk]
    by_cases hc : completeness_score old < completeness_score (normalize_review r)
    · rw [if_pos hc]
      exact storeBack_keys_nodup _ _ _ h
    · rw [if_neg hc]
      exact h

theorem foldl_step_review_keys_nodup (l : List Review) (rm : List (String × Review))
    (h : (rm.map Prod.fst).Nodup) : ((l.foldl step_review rm).map Prod.fst).Nodup := by
  induction l generalizing rm with
  | nil => exact h
  | cons r t ih => exact ih _ (step_review_keys_nodup rm r h)

theorem reviews_map_ite (c : Prop) [inst : Decidable c] (m1 m2 : MOffice) :
    (ite c m1 m2).reviews_map = ite c m1.reviews_map m2.reviews_map := by
  split <;> rfl

theorem offices_ite (c : Prop) [inst : Decidable c] (m1 m2 : MFirm) :
    (ite c m1 m2).offices = ite c m1.offices m2.offices := by
  split <;> rfl

theorem step_office_nodup (offices : List (String × MOffice)) (o : OfficeIn)
    (h : office_maps_nodup offices) : office_maps_nodup (step_office offices o) := by
  intro p hp
  rcases storeBack_mem _ _ _ _ hp with h1 | h1
  · rw [h1]
    simp only [step_office]
    apply foldl_step_review_keys_nodup
    cases hlk : alookup (office_key o) offices with
    | none => simp [hlk, reviews_map_ite]
    | some mo =>
      have hmo := h _ (alookup_mem _ _ _ hlk)
      simp [hlk, reviews_map_ite]
      exact hmo
  · exact h _ h1

theorem foldl_step_office_nodup (l : List OfficeIn) (os : List (String × MOffice))
    (h : office_maps_nodup os) : office_maps_nodup (l.foldl step_office os) := by
  induction l generalizing os with
  | nil => exact h
  | cons o t ih => exact ih _ (step_office_nodup os o h)

theorem step_firm_nodup (m : List (String × MFirm)) (f : FirmIn)
    (h : index_reviews_nodup m) : index_reviews_nodup (step_firm m f) := by
  intro p hp
  rcases storeBack_mem _ _ _ _ hp with h1 | h1
  · rw [h1]
    simp only [step_firm]
    apply foldl_step_office_nodup
    cases hlk : alookup (firm_key f) m with
    | none =>
      simp [hlk, offices_ite]
      intro q hq
      cases hq
    | some mf =>
      have hmf := h _ (alookup_mem _ _ _ hlk)
      simp [hlk, offices_ite]
      exact hmf
  · exact h _ h1

theorem merge_index_reviews_nodup (datasets : List (String × Dataset)) :
    index_reviews_nodup (merge_index datasets) := by
  unfold merge_index
  have main : ∀ (ds : List (String × Dataset)) (m : List (String × MFirm)),
      index_reviews_nodup m →
      index_reviews_nodup (ds.foldl (fun m sds => sds.2.firms.foldl step_firm m) m) := by
    intro ds
    induction ds with
    | nil => intro m hm; exact hm
    | cons d t ih =>
      intro m hm
      apply ih
      have : ∀ (fl : List FirmIn) (m2 : List (String × MFirm)),
          index_reviews_nodup m2 → index_reviews_nodup (fl.foldl step_firm m2) := by
        intro fl
        induction fl with
        | nil => intro m2 hm2; exact hm2
        | cons f ft ihf => intro m2 hm2; exact ihf _ (step_firm_nodup m2 f hm2)
      exact this d.2.firms m hm
  exact main datasets [] (by intro p hp; cases hp)

/-! ## Claim C1 -/

/-- C1: during a merge run, the office review map is updated per dedup
key as follows: an absent key is inserted; a present key is replaced
exactly when the incoming review's completeness score strictly exceeds
the stored one (ties keep the earlier-stored review); every other key is
untouched.  Consequently every office of every merge run stores at most
one review per dedup key (`index_reviews_nodup`). -/
theorem claim_review_dedup_policy :
    (∀ (rm : List (String × Review)) (r : Review) (k2 : String),
       alookup k2 (step_review rm r) =
         if k2 = review_dedupe_key (normalize_review r) then
           some (match alookup k2 rm with
                 | none => normalize_review r
                 | some old =>
                   if completeness_score old < completeness_score (normalize_review r) then
                     normalize_review r
                   else old)
         else alookup k2 rm)
    ∧ (∀ datasets : List (String × Dataset), index_reviews_nodup (merge_index datasets)) := by
  constructor
  · intro rm r k2
    by_cases hk : k2 = review_dedupe_key (normalize_review r)
    · rw [if_pos hk, hk]
      rw [← hk, step_review_alookup, if_pos hk, hk]
    · rw [if_neg hk, step_review_alookup, if_neg hk]
  · exact merge_index_reviews_nodup

/-! ## Claim C9 -/

/-- C9: merging the empty ordered list of sources is a total computation
returning zero firms, and a dataset-quality record with 0 firms
collected, 0 reviews collected and no below-minimum firms. -/
theorem claim_merge_empty :
    merge_datasets [] =
      ([], { firms_collected := 0, reviews_collected := 0,
             firms_below_min_reviews := [],
             known_limitations :=
               ["Merged from provided JSON sources; public review availability varies widely by firm."] }) := rfl

/-! ## Claim C3 -/

set_option maxHeartbeats 1600000 in
/-- C3: the completeness score is exactly the sum of the six indicator
weights (4 for an external review id, 2 for a published date, 2 for both
rating value and scale present, 2 for non-empty trimmed review text, 1
for an author name, 1 for a source url), and therefore lies in `0..12`. -/
theorem claim_completeness_score (r : Review) :
    completeness_score r =
      (if r.review_id ≠ "" then 4 else 0) +
      (if r.date_published ≠ "" then 2 else 0) +
      (if r.rating_value ≠ RVal.null ∧ r.rating_scale ≠ RVal.null then 2 else 0) +
      (if pyStrip r.review_text ≠ "" then 2 else 0) +
      (if r.author_name ≠ "" then 1 else 0) +
      (if r.source_url ≠ "" then 1 else 0)
    ∧ completeness_score r ≤ 12 := by
  have hrv : (rvPresent r.rating_value && rvPresent r.rating_scale) = true ↔
      (r.rating_value ≠ RVal.null ∧ r.rating_scale ≠ RVal.null) := by
    cases r.rating_value <;> cases r.rating_scale <;> simp [rvPresent]
  constructor
  · simp only [completeness_score, hrv]
    split_ifs <;> omega
  · simp only [completeness_score]
    split_ifs <;> omega

/-- C3 witness: a fully-populated review record scores exactly 12, and
the six indicator terms evaluate as claimed. -/
theorem claim_completeness_score_w :
    completeness_score
        { platform := "g", review_id := "r1", author_name := "A",
          rating_value := RVal.num ⟨5, 1, by decide⟩,
          rating_scale := RVal.num ⟨5, 1, by decide⟩, date_published := "2024",
          date_raw := "", review_text := "ok", source_url := "u",
          sentiment_label := "", sentiment_score := RVal.null } = 12
      ∧ completeness_score
        { platform := "g", review_id := "r1", author_name := "A",
          rating_value := RVal.num ⟨5, 1, by decide⟩,
          rating_scale := RVal.num ⟨5, 1, by decide⟩, date_published := "2024",
          date_raw := "", review_text := "ok", source_url := "u",
          sentiment_label := "", sentiment_score := RVal.null } ≤ 12 := by
  refine ⟨?_, (claim_completeness_score _).2⟩
  decide

/-! ## Value semantics of the fraction arithmetic -/

theorem den_cast_ne (q : Q) : ((q.den : ℚ)) ≠ 0 := by
  have := q.dpos
  positivity

theorem toRat_eq_zero_iff (q : Q) : toRat q = 0 ↔ q.num = 0 := by
  unfold toRat
  rw [div_eq_zero_iff]
  constructor
  · rintro (h | h)
    · exact_mod_cast h
    · exact absurd h (den_cast_ne q)
  · intro h
    exact Or.inl (by exact_mod_cast h)

theorem toRat_qMul (a b : Q) : toRat (qMul a b) = toRat a * toRat b := by
  unfold toRat qMul
  push_cast
  rw [div_mul_div_comm]

theorem toRat_qDiv (a b : Q) (h : b.num ≠ 0) :
    toRat (qDiv a b) = toRat a / toRat b := by
  have hda : ((a.den : ℚ)) ≠ 0 := den_cast_ne a
  have hdb : ((b.den : ℚ)) ≠ 0 := den_cast_ne b
  have hnb : ((b.num : ℚ)) ≠ 0 := by exact_mod_cast h
  unfold toRat qDiv
  rcases lt_trichotomy b.num 0 with hb | hb | hb
  · rw [dif_neg (by omega), dif_pos hb]
    have h2 : (((-b.num).toNat : ℤ)) = -b.num := Int.toNat_of_nonneg (by omega)
    have hcast : (((-b.num).toNat : ℚ)) = -((b.num : ℚ)) := by
      exact_mod_cast congrArg (fun z : ℤ => (z : ℚ)) h2
    push_cast [hcast]
    field_simp
  · exact absurd hb h
  · rw [dif_pos hb]
    have h2 : ((b.num.toNat : ℤ)) = b.num := Int.toNat_of_nonneg (by omega)
    have hcast : ((b.num.toNat : ℚ)) = ((b.num : ℚ)) := by
      exact_mod_cast congrArg (fun z : ℤ => (z : ℚ)) h2
    push_cast [hcast]
    field_simp

theorem toRat_qInt (n : Int) : toRat (qInt n) = (n : ℚ) := by
  unfold toRat qInt
  simp

theorem rating_to5_of_num (v s : Q) (r : Review) (hv : r.rating_value = RVal.num v)
    (hs : r.rating_scale = RVal.num s) :
    rating_to5 r = if s.num ≠ 0 then some (qMul (qDiv v s) (qInt 5)) else none := by
  unfold rating_to5
  rw [hv, hs]

theorem rating_to5_none (r : Review)
    (h : ∀ v s, ¬(r.rating_value = RVal.num v ∧ r.rating_scale = RVal.num s)) :
    rating_to5 r = none := by
  unfold rating_to5
  cases hv : r.rating_value <;> cases hs : r.rating_scale <;>
    first
      | rfl
      | exact absurd ⟨hv, hs⟩ (h _ _)

/-! ## Claim C6 -/

/-- C6: the analysis converts a review's rating to the 0-5 scale as
`(rating_value / rating_scale) * 5` exactly when both fields are numeric
and the scale is a non-zero number; otherwise the review contributes no
rating.  In particular `4` of scale `5` converts to `4`, and a zero
scale yields no rating (so the guarded division is never performed with
a zero divisor). -/
theorem claim_rating_conversion (r : Review) :
    ((rating_to5 r).isSome ↔
       ∃ v s, r.rating_value = RVal.num v ∧ r.rating_scale = RVal.num s ∧ toRat s ≠ 0)
    ∧ (∀ q, rating_to5 r = some q →
        ∃ v s, r.rating_value = RVal.num v ∧ r.rating_scale = RVal.num s ∧ toRat s ≠ 0 ∧
          toRat q = toRat v / toRat s * 5)
    ∧ (rating_to5 wRev6).map toRat = some 4
    ∧ rating_to5 wRev6z = none := by
  have main : ∀ q, rating_to5 r = some q →
      ∃ v s, r.rating_value = RVal.num v ∧ r.rating_scale = RVal.num s ∧ toRat s ≠ 0 ∧
        toRat q = toRat v / toRat s * 5 := by
    intro q hq
    cases hv : r.rating_value with
    | num v =>
      cases hs : r.rating_scale with
      | num s =>
        rw [rating_to5_of_num v s r hv hs] at hq
        by_cases hz : s.num ≠ 0
        · rw [if_pos hz] at hq
          injection hq with hq2
          refine ⟨v, s, rfl, rfl, (toRat_eq_zero_iff s).not.mpr hz, ?_⟩
          rw [← hq2, toRat_qMul, toRat_qDiv _ _ hz, toRat_qInt]
          norm_num
        · rw [if_neg hz] at hq
          cases hq
      | null =>
        rw [rating_to5_none r (by rintro v2 s2 ⟨e1, e2⟩; rw [hs] at e2; cases e2)] at hq
        cases hq
      | other s2 =>
        rw [rating_to5_none r (by rintro v2 s2 ⟨e1, e2⟩; rw [hs] at e2; cases e2)] at hq
        cases hq
    | null =>
      rw [rating_to5_none r (by rintro v2 s2 ⟨e1, e2⟩; rw [hv] at e1; cases e1)] at hq
      cases hq
    | other s2 =>
      rw [rating_to5_none r (by rintro v2 s2 ⟨e1, e2⟩; rw [hv] at e1; cases e1)] at hq
      cases hq
  refine ⟨?_, main, ?_, rfl⟩
  · constructor
    · intro hsome
      rw [Option.isSome_iff_exists] at hsome
      obtain ⟨q, hq⟩ := hsome
      obtain ⟨v, s, hv, hs, hz, _⟩ := main q hq
      exact ⟨v, s, hv, hs, hz⟩
    · rintro ⟨v, s, hv, hs, hz⟩
      have hz2 : s.num ≠ 0 := fun e => hz ((toRat_eq_zero_iff s).mpr e)
      rw [rating_to5_of_num v s r hv hs, if_pos hz2]
      rfl
  · have he : rating_to5 wRev6 =
        some (qMul (qDiv ⟨4, 1, by decide⟩ ⟨5, 1, by decide⟩) (qInt 5)) := rfl
    rw [he]
    show some _ = some (4 : ℚ)
    congr 1
    rw [toRat_qMul, toRat_qDiv _ _ (by decide), toRat_qInt]
    unfold toRat
    norm_num

/-- C6 witness: the conversion is defined (returns a rating) at the
concrete review rated 4 of scale 5, via the characterization. -/
theorem claim_rating_conversion_w : (rating_to5 wRev6).isSome :=
  (claim_rating_conversion wRev6).1.mpr
    ⟨⟨4, 1, by decide⟩, ⟨5, 1, by decide⟩, rfl, rfl, by
      rw [toRat]
      norm_num⟩

/-! ## The stable sort: permutation and sortedness -/

theorem insertLe_perm (le : α → α → Bool) (x : α) (l : List α) :
    (insertLe le x l).Perm (x :: l) := by
  induction l with
  | nil => exact List.Perm.refl _
  | cons y ys ih =>
    unfold insertLe
    by_cases h : le x y
    · rw [if_pos h]
    · rw [if_neg h]
      exact ((ih.cons y).trans (List.Perm.swap x y ys))

theorem insertionSort_perm (le : α → α → Bool) (l : List α) :
    (insertionSort le l).Perm l := by
  induction l with
  | nil => exact List.Perm.refl _
  | cons x xs ih =>
    unfold insertionSort
    exact (insertLe_perm le x (insertionSort le xs)).trans (ih.cons x)

theorem insertLe_pairwise (le : α → α → Bool)
    (htrans : ∀ a b c, le a b = true → le b c = true → le a c = true)
    (htot : ∀ a b, (le a b || le b a) = true)
    (x : α) (l : List α) (hl : l.Pairwise (fun a b => le a b = true)) :
    (insertLe le x l).Pairwise (fun a b => le a b = true) := by
  induction l with
  | nil => simp [insertLe]
  | cons y ys ih =>
    unfold insertLe
    by_cases h : le x y
    · rw [if_pos h]
      refine List.Pairwise.cons ?_ hl
      intro z hz
      rcases List.mem_cons.mp hz with e | e
      · rw [e]; exact h
      · exact htrans x y z h (List.rel_of_pairwise_cons hl e)
    · rw [if_neg h]
      have hyx : le y x = true := by
        have := htot x y
        rcases Bool.or_eq_true_iff.mp this with h1 | h1
        · exact absurd h1 h
        · exact h1
      refine List.Pairwise.cons ?_ (ih (List.Pairwise.of_cons hl))
      intro z hz
      have : z ∈ x :: ys := (insertLe_perm le x ys).mem_iff.mp hz
      rcases List.mem_cons.mp this with e | e
      · rw [e]; exact hyx
      · exact List.rel_of_pairwise_cons hl e

theorem insertionSort_pairwise (le : α → α → Bool)
    (htrans : ∀ a b c, le a b = true → le b c = true → le a c = true)
    (htot : ∀ a b, (le a b || le b a) = true) (l : List α) :
    (insertionSort le l).Pairwise (fun a b => le a b = true) := by
  induction l with
  | nil => simp [insertionSort]
  | cons x xs ih => exact insertLe_pairwise le htrans htot x _ ih

theorem insertionSort_head_min (le : α → α → Bool)
    (htrans : ∀ a b c, le a b = true → le b c = true → le a c = true)
    (htot : ∀ a b, (le a b || le b a) = true) (l : List α) (x : α) (t : List α)
    (h : insertionSort le l = x :: t) : x ∈ l ∧ ∀ y ∈ l, le x y = true := by
  have hperm := insertionSort_perm le l
  rw [h] at hperm
  constructor
  · exact hperm.mem_iff.mp (List.mem_cons_self x t)
  · intro y hy
    have : y ∈ x :: t := hperm.mem_iff.mpr hy
    rcases List.mem_cons.mp this with e | e
    · rw [e]
      have := htot x x
      simpa using this
    · have hp := insertionSort_pairwise le htrans htot l
      rw [h] at hp
      exact List.rel_of_pairwise_cons hp e

/-! ## The code-point string order -/

theorem char_toNat_inj (c d : Char) (h : c.toNat = d.toNat) : c = d :=
  Char.ext (UInt32.toNat.inj h)

theorem lexLt_asymm (a : List Char) : ∀ b, lexLt a b = true → lexLt b a = false := by
  induction a with
  | nil =>
    intro b h
    cases b with
    | nil => cases h
    | cons d bs => rfl
  | cons c as ih =>
    intro b h
    cases b with
    | nil => cases h
    | cons d bs =>
      simp only [lexLt, Bool.or_eq_true, decide_eq_true_eq, Bool.and_eq_true] at h
      simp only [lexLt, Bool.or_eq_false_iff, decide_eq_false_iff_not, Bool.and_eq_false_iff]
      rcases h with h1 | ⟨h1, h2⟩
      · constructor
        · omega
        · left
          intro e
          rw [e] at h1
          omega
      · constructor
        · rw [h1]; omega
        · right
          exact ih bs h2
  
theorem lexLt_trans (a : List Char) :
    ∀ b c, lexLt a b = true → lexLt b c = true → lexLt a c = true := by
  induction a with
  | nil =>
    intro b c h1 h2
    cases b with
    | nil => cases h1
    | cons d bs =>
      cases c with
      | nil => cases h2
      | cons e cs => rfl
  | cons x as ih =>
    intro b c h1 h2
    cases b with
    | nil => cases h1
    | cons y bs =>
      cases c with
      | nil => cases h2
      | cons z cs =>
        simp only [lexLt, Bool.or_eq_true, decide_eq_true_eq, Bool.and_eq_true] at h1 h2 ⊢
        rcases h1 with h1 | ⟨h1, h1b⟩ <;> rcases h2 with h2 | ⟨h2, h2b⟩
        · left; omega
        · left; rw [← h2]; exact h1
        · left; rw [h1]; exact h2
        · right; exact ⟨h1.trans h2, ih bs cs h1b h2b⟩

theorem lexLt_connex (a : List Char) :
    ∀ b, lexLt a b = false → lexLt b a = false → a = b := by
  induction a with
  | nil =>
    intro b h1 h2
    cases b with
    | nil => rfl
    | cons d bs => cases h1
  | cons c as ih =>
    intro b h1 h2
    cases b with
    | nil => cases h2
    | cons d bs =>
      simp only [lexLt, Bool.or_eq_false_iff, decide_eq_false_iff_not,
        Bool.and_eq_false_iff, decide_eq_false_iff_not] at h1 h2
      have hcd : c = d := char_toNat_inj c d (by omega)
      rcases h1.2 with e | e
      · exact absurd hcd e
      · rcases h2.2 with e2 | e2
        · exact absurd hcd.symm e2
        · rw [hcd, ih bs e e2]

theorem strLeB_total (a b : String) : (strLeB a b || strLeB b a) = true := by
  unfold strLeB
  cases h : lexLt b.data a.data with
  | false => rfl
  | true =>
    rw [lexLt_asymm _ _ h]
    simp

theorem strLeB_trans (a b c : String) (h1 : strLeB a b = true) (h2 : strLeB b c = true) :
    strLeB a c = true := by
  unfold strLeB at h1 h2 ⊢
  rw [Bool.not_eq_eq_eq_not] at h1 h2 ⊢
  simp only [Bool.not_true] at h1 h2 ⊢
  cases hca : lexLt c.data a.data with
  | false => rfl
  | true =>
    exfalso
    cases hab : lexLt a.data b.data with
    | true =>
      have := lexLt_trans _ _ _ hca hab
      rw [this] at h2
      cases h2
    | false =>
      have he := lexLt_connex _ _ hab h1
      rw [he] at hca
      rw [hca] at h2
      cases h2

theorem strLeB_refl (a : String) : strLeB a a = true := by
  have := strLeB_total a a
  simpa using this

/-! ## Character-level facts about the modelled lowercasing -/

theorem charOfNat_toNat (n : Nat) (h : n < 55296) : (Char.ofNat n).toNat = n := by
  unfold Char.ofNat
  split
  · rfl
  · rename_i hv
    exact absurd (Or.inl (by omega)) hv

theorem pySpace_toLowerPy (c : Char) : pySpace (toLowerPy c) = pySpace c := by
  unfold toLowerPy
  split_ifs with h1 h2
  · unfold pySpace
    rw [charOfNat_toNat _ (by omega)]
    rw [Bool.eq_iff_iff]
    simp only [Bool.or_eq_true, decide_eq_true_eq]
    omega
  · unfold pySpace
    rw [charOfNat_toNat _ (by omega)]
    rw [Bool.eq_iff_iff]
    simp only [Bool.or_eq_true, decide_eq_true_eq]
    omega
  · rfl

theorem toLowerPy_idem (c : Char) : toLowerPy (toLowerPy c) = toLowerPy c := by
  by_cases h1 : 65 ≤ c.toNat ∧ c.toNat ≤ 90
  · have e : toLowerPy c = Char.ofNat (c.toNat + 32) := by
      unfold toLowerPy
      rw [if_pos h1]
    rw [e]
    have ht : (Char.ofNat (c.toNat + 32)).toNat = c.toNat + 32 := charOfNat_toNat _ (by omega)
    unfold toLowerPy
    simp only [ht]
    rw [if_neg (by omega), if_neg (by omega)]
  · by_cases h2 : 192 ≤ c.toNat ∧ c.toNat ≤ 222 ∧ c.toNat ≠ 215
    · have e : toLowerPy c = Char.ofNat (c.toNat + 32) := by
        unfold toLowerPy
        rw [if_neg h1, if_pos h2]
      rw [e]
      have ht : (Char.ofNat (c.toNat + 32)).toNat = c.toNat + 32 := charOfNat_toNat _ (by omega)
      unfold toLowerPy
      simp only [ht]
      rw [if_neg (by omega), if_neg (by omega)]
    · have e : toLowerPy c = c := by
        unfold toLowerPy
        rw [if_neg h1, if_neg h2]
      rw [e, e]

theorem toLowerPy_alnum (c : Char) (h : isAsciiAlnum c = true) :
    (48 ≤ (toLowerPy c).toNat ∧ (toLowerPy c).toNat ≤ 57) ∨
      (97 ≤ (toLowerPy c).toNat ∧ (toLowerPy c).toNat ≤ 122) := by
  unfold isAsciiAlnum at h
  rw [decide_eq_true_eq] at h
  unfold toLowerPy
  split_ifs with h1 h2
  · rw [charOfNat_toNat _ (by omega)]
    omega
  · rw [charOfNat_toNat _ (by omega)]
    omega
  · omega

/-! ## Behavior of run collapsing and end stripping -/

theorem collapseRuns_mem (p : Char → Bool) (rep : Char) (l : List Char) (c : Char)
    (h : c ∈ collapseRuns p rep l) : c = rep ∨ (c ∈ l ∧ p c = false) := by
  induction l with
  | nil => cases h
  | cons a t ih =>
    by_cases ha : p a
    · cases t with
      | nil =>
        simp only [collapseRuns, if_pos ha, List.mem_singleton] at h
        exact Or.inl h
      | cons d ts =>
        by_cases hd : p d
        · rw [show collapseRuns p rep (a :: d :: ts) = collapseRuns p rep (d :: ts) from by
            simp [collapseRuns, ha, hd]] at h
          rcases ih h with h1 | ⟨h1, h2⟩
          · exact Or.inl h1
          · exact Or.inr ⟨List.mem_cons_of_mem a h1, h2⟩
        · rw [show collapseRuns p rep (a :: d :: ts) = rep :: collapseRuns p rep (d :: ts) from by
            simp [collapseRuns, ha, hd]] at h
          rcases List.mem_cons.mp h with h1 | h1
          · exact Or.inl h1
          · rcases ih h1 with h2 | ⟨h2, h3⟩
            · exact Or.inl h2
            · exact Or.inr ⟨List.mem_cons_of_mem a h2, h3⟩
    · rw [show collapseRuns p rep (a :: t) = a :: collapseRuns p rep t from by
        simp [collapseRuns, ha]] at h
      rcases List.mem_cons.mp h with h1 | h1
      · exact Or.inr ⟨by rw [h1]; exact List.mem_cons_self a t, by rw [h1]; simpa using ha⟩
      · rcases ih h1 with h2 | ⟨h2, h3⟩
        · exact Or.inl h2
        · exact Or.inr ⟨List.mem_cons_of_mem a h2, h3⟩

theorem collapseRuns_head (p : Char → Bool) (rep : Char) (l : List Char) (c : Char)
    (h1 : l.head? = some c) (h2 : p c = false) :
    (collapseRuns p rep l).head? = some c := by
  cases l with
  | nil => cases h1
  | cons a t =>
    simp only [List.head?_cons] at h1
    cases h1
    rw [show collapseRuns p rep (c :: t) = c :: collapseRuns p rep t from by
      simp [collapseRuns, h2]]
    rfl

theorem collapseRuns_chain (p : Char → Bool) (rep : Char) (l : List Char) :
    (collapseRuns p rep l).Chain' (fun a b => ¬(p a = true ∧ p b = true)) := by
  induction l with
  | nil => simp [collapseRuns]
  | cons a t ih =>
    by_cases ha : p a
    · cases t with
      | nil => simp [collapseRuns, ha]
      | cons d ts =>
        by_cases hd : p d
        · rw [show collapseRuns p rep (a :: d :: ts) = collapseRuns p rep (d :: ts) from by
            simp [collapseRuns, ha, hd]]
          exact ih
        · rw [show collapseRuns p rep (a :: d :: ts) = rep :: collapseRuns p rep (d :: ts) from by
            simp [collapseRuns, ha, hd]]
          rw [List.chain'_cons']
          refine ⟨?_, ih⟩
          intro b hb
          rw [collapseRuns_head p rep (d :: ts) d rfl (by simpa using hd)] at hb
          cases hb
          intro hc
          rw [hc.2] at hd
          exact hd rfl
    · rw [show collapseRuns p rep (a :: t) = a :: collapseRuns p rep t from by
        simp [collapseRuns, ha]]
      rw [List.chain'_cons']
      refine ⟨?_, ih⟩
      intro b hb
      intro hc
      rw [hc.1] at ha
      exact ha rfl

theorem getLast?_cons_ne (a : α) (X : List α) (h : X ≠ []) :
    (a :: X).getLast? = X.getLast? := by
  cases X with
  | nil => exact absurd rfl h
  | cons b bs => rw [List.getLast?_cons_cons]

theorem collapseRuns_getLast (p : Char → Bool) (rep : Char) (l : List Char) (c : Char)
    (h1 : l.getLast? = some c) (h2 : p c = false) :
    (collapseRuns p rep l).getLast? = some c := by
  induction l with
  | nil => cases h1
  | cons a t ih =>
    cases t with
    | nil =>
      simp only [List.getLast?_singleton] at h1
      cases h1
      have hc : ¬(p c = true) := by simp [h2]
      simp [collapseRuns, hc]
    | cons d ts =>
      rw [List.getLast?_cons_cons] at h1
      have iht := ih h1
      have hne : collapseRuns p rep (d :: ts) ≠ [] := by
        intro e
        rw [e] at iht
        cases iht
      by_cases ha : p a
      · by_cases hd : p d
        · rw [show collapseRuns p rep (a :: d :: ts) = collapseRuns p rep (d :: ts) from by
            simp [collapseRuns, ha, hd]]
          exact iht
        · rw [show collapseRuns p rep (a :: d :: ts) = rep :: collapseRuns p rep (d :: ts) from by
            simp [collapseRuns, ha, hd]]
          rw [getLast?_cons_ne _ _ hne]
          exact iht
      · rw [show collapseRuns p rep (a :: d :: ts) = a :: collapseRuns p rep (d :: ts) from by
          simp [collapseRuns, ha]]
        rw [getLast?_cons_ne _ _ hne]
        exact iht

theorem collapseRuns_fixpoint (p : Char → Bool) (rep : Char) (l : List Char)
    (hall : ∀ c ∈ l, p c = true → c = rep)
    (hchain : l.Chain' (fun a b => ¬(p a = true ∧ p b = true))) :
    collapseRuns p rep l = l := by
  induction l with
  | nil => rfl
  | cons a t ih =>
    have ih2 := ih (fun c hc => hall c (List.mem_cons_of_mem a hc))
      hchain.tail
    by_cases ha : p a
    · have ha2 : a = rep := hall a (List.mem_cons_self a t) ha
      cases t with
      | nil => simp [collapseRuns, ha, ha2]
      | cons d ts =>
        have hd : p d = false := by
          have := List.chain'_cons.mp hchain
          by_cases hdp : p d = true
          · exact absurd ⟨ha, hdp⟩ this.1
          · simpa using hdp
        rw [show collapseRuns p rep (a :: d :: ts) = rep :: collapseRuns p rep (d :: ts) from by
          simp [collapseRuns, ha, hd]]
        rw [ih2, ha2]
    · rw [show collapseRuns p rep (a :: t) = a :: collapseRuns p rep t from by
        simp [collapseRuns, ha]]
      rw [ih2]

theorem head?_dropWhile_false (p : α → Bool) (l : List α) (c : α)
    (h : (l.dropWhile p).head? = some c) : p c = false := by
  have hg := List.head?_dropWhile_not p l
  rw [h] at hg
  exact hg

theorem stripEnds_getLast (p : Char → Bool) (l : List Char) (c : Char)
    (h : (stripEnds p l).getLast? = some c) : p c = false := by
  unfold stripEnds at h
  rw [List.getLast?_reverse] at h
  exact head?_dropWhile_false p _ c h

theorem stripEnds_head (p : Char → Bool) (l : List Char) (c : Char)
    (h : (stripEnds p l).head? = some c) : p c = false := by
  unfold stripEnds at h
  rw [List.head?_reverse] at h
  set X := (l.dropWhile p).reverse.dropWhile p with hX
  have hne : X ≠ [] := by
    intro e
    rw [e] at h
    cases h
  obtain ⟨t, ht⟩ := List.dropWhile_suffix (l := (l.dropWhile p).reverse) p
  have hm : ((l.dropWhile p).reverse).getLast? = some c := by
    rw [← ht, List.getLast?_append]
    rw [← hX] at *
    simp [hne, h]
  rw [List.getLast?_reverse] at hm
  exact head?_dropWhile_false p _ c hm

theorem stripEnds_subset (p : Char → Bool) (l : List Char) (c : Char)
    (h : c ∈ stripEnds p l) : c ∈ l := by
  unfold stripEnds at h
  rw [List.mem_reverse] at h
  have h2 := List.dropWhile_subset (l := (l.dropWhile p).reverse) p h
  rw [List.mem_reverse] at h2
  exact List.dropWhile_subset p h2

theorem dropWhile_eq_self (p : α → Bool) (l : List α)
    (hh : ∀ c, l.head? = some c → p c = false) : l.dropWhile p = l := by
  cases l with
  | nil => rfl
  | cons a t =>
    rw [List.dropWhile_cons_of_neg]
    simp [hh a rfl]

theorem stripEnds_fixpoint (p : Char → Bool) (l : List Char)
    (hh : ∀ c, l.head? = some c → p c = false)
    (hl : ∀ c, l.getLast? = some c → p c = false) : stripEnds p l = l := by
  unfold stripEnds
  rw [dropWhile_eq_self p l hh]
  rw [dropWhile_eq_self p l.reverse (fun c hc => hl c (by rwa [List.head?_reverse] at hc))]
  rw [List.reverse_reverse]

/-! ## Behavioral properties of the key/text normalization -/

theorem norm_text_data (t : String) :
    (norm_text t).data =
      (collapseRuns pySpace ' ' (stripEnds pySpace t.data)).map toLowerPy := rfl

theorem norm_text_space_eq (t : String) (c : Char) (hc : c ∈ (norm_text t).data)
    (hs : pySpace c = true) : c = ' ' := by
  rw [norm_text_data] at hc
  obtain ⟨c0, hc0, he⟩ := List.mem_map.mp hc
  rcases collapseRuns_mem pySpace ' ' _ c0 hc0 with h1 | ⟨_, h2⟩
  · rw [← he, h1]
    decide
  · rw [← he, pySpace_toLowerPy] at hs
    rw [h2] at hs
    cases hs

theorem norm_text_chain (t : String) :
    (norm_text t).data.Chain' (fun a b => ¬(pySpace a = true ∧ pySpace b = true)) := by
  rw [norm_text_data]
  rw [List.chain'_map]
  have := collapseRuns_chain pySpace ' ' (stripEnds pySpace t.data)
  exact this.imp (fun a b h => by
    rw [pySpace_toLowerPy, pySpace_toLowerPy]
    exact h)

theorem norm_text_head (t : String) (c : Char) (h : (norm_text t).data.head? = some c) :
    pySpace c = false := by
  rw [norm_text_data, List.head?_map] at h
  cases hs : (collapseRuns pySpace ' ' (stripEnds pySpace t.data)).head? with
  | none =>
    rw [hs] at h
    cases h
  | some c0 =>
    rw [hs] at h
    simp only [Option.map_some'] at h
    cases h
    rw [pySpace_toLowerPy]
    rcases collapseRuns_mem pySpace ' ' _ c0 (List.mem_of_mem_head? hs) with h1 | ⟨_, h2⟩
    · cases hs2 : (stripEnds pySpace t.data).head? with
      | none =>
        rw [show stripEnds pySpace t.data = [] from List.head?_eq_none_iff.mp hs2] at hs
        cases hs
      | some d =>
        have hd := stripEnds_head pySpace t.data d hs2
        rw [collapseRuns_head pySpace ' ' _ d hs2 hd] at hs
        cases hs
        exact hd
    · exact h2

theorem norm_text_getLast (t : String) (c : Char)
    (h : (norm_text t).data.getLast? = some c) : pySpace c = false := by
  rw [norm_text_data, List.getLast?_map] at h
  cases hs : (collapseRuns pySpace ' ' (stripEnds pySpace t.data)).getLast? with
  | none =>
    rw [hs] at h
    cases h
  | some c0 =>
    rw [hs] at h
    simp only [Option.map_some'] at h
    cases h
    rw [pySpace_toLowerPy]
    cases hs2 : (stripEnds pySpace t.data).getLast? with
    | none =>
      rw [show stripEnds pySpace t.data = [] from List.getLast?_eq_none_iff.mp hs2] at hs
      cases hs
    | some d =>
      have hd := stripEnds_getLast pySpace t.data d hs2
      rw [collapseRuns_getLast pySpace ' ' _ d hs2 hd] at hs
      cases hs
      exact hd

theorem norm_text_lower (t : String) (c : Char) (hc : c ∈ (norm_text t).data) :
    toLowerPy c = c := by
  rw [norm_text_data] at hc
  obtain ⟨c0, _, he⟩ := List.mem_map.mp hc
  rw [← he]
  exact toLowerPy_idem c0

theorem norm_text_idem (t : String) : norm_text (norm_text t) = norm_text t := by
  set s := norm_text t with hs
  have h1 : stripEnds pySpace s.data = s.data :=
    stripEnds_fixpoint pySpace s.data (norm_text_head t) (norm_text_getLast t)
  have h2 : collapseRuns pySpace ' ' s.data = s.data :=
    collapseRuns_fixpoint pySpace ' ' s.data
      (fun c hc hp => norm_text_space_eq t c hc hp) (norm_text_chain t)
  have h3 : s.data.map toLowerPy = s.data := by
    rw [show s.data.map toLowerPy = s.data.map id from
      List.map_congr_left (fun c hc => norm_text_lower t c hc)]
    exact List.map_id s.data
  show pyLower (String.mk (collapseRuns pySpace ' ' (stripEnds pySpace s.data))) = s
  rw [h1, h2]
  show String.mk (s.data.map toLowerPy) = s
  rw [h3]

/-! ## Claim C2 (corrected) -/

/-- C2 counterexample: the strings `"á"` and `"a"` differ only in a
diacritic, yet they normalize to different key text — `norm_text` does
not strip diacritics (the spec's "Unicode-decompose and strip combining
marks" step does not exist in the key normalization; only `slugify`
strips diacritics). -/
theorem claim_norm_text_counter : norm_text "á" ≠ norm_text "a" := by decide

/-- C2 (amended): the text normalization used for keys and matching
collapses internal whitespace runs to the single character `' '`, trims
whitespace from both ends, and lowercases — but preserves diacritics, so
comparison is diacritics-sensitive.  Concretely: every whitespace
character surviving in a normalized string is `' '`, no two adjacent
whitespace characters survive, the ends are not whitespace, every
surviving character is a `toLowerPy` fixpoint, normalization is
idempotent, and theme classification is invariant under it. -/
theorem claim_norm_text :
    (∀ (t : String) (c : Char), c ∈ (norm_text t).data → pySpace c = true → c = ' ')
    ∧ (∀ t : String,
        (norm_text t).data.Chain' (fun a b => ¬(pySpace a = true ∧ pySpace b = true)))
    ∧ (∀ (t : String) (c : Char), (norm_text t).data.head? = some c → pySpace c = false)
    ∧ (∀ (t : String) (c : Char), (norm_text t).data.getLast? = some c → pySpace c = false)
    ∧ (∀ (t : String) (c : Char), c ∈ (norm_text t).data → toLowerPy c = c)
    ∧ (∀ t : String, norm_text (norm_text t) = norm_text t)
    ∧ (∀ t : String, categorize (norm_text t) = categorize t) :=
  ⟨norm_text_space_eq, norm_text_chain, norm_text_head, norm_text_getLast,
   norm_text_lower, norm_text_idem, fun t => by
     unfold categorize
     rw [norm_text_idem]⟩

/-- C2 witness: the amended normalization properties evaluated at the
concrete string `" A  b\t"`: its normalization is a `norm_text` fixpoint,
and the surviving character `'b'` is lowercase. -/
theorem claim_norm_text_w :
    norm_text (norm_text " A  b\t") = norm_text " A  b\t" ∧ toLowerPy 'b' = 'b' :=
  ⟨claim_norm_text.2.2.2.2.2.1 " A  b\t",
   claim_norm_text.2.2.2.2.1 " A  b\t" 'b' (by decide)⟩

/-! ## Claim C7 (corrected) -/

/-- C7 counterexample: the text
`"email cena rychle arogantní přístup"` contains `"arogantní přístup"`,
yet it does not classify into `empathy_human_approach`: three
earlier-declared categories (communication, fees, speed) also match, and
the result is truncated to at most 3 in taxonomy order, pushing the
empathy category out. -/
theorem claim_categorize_counter :
    strHas "email cena rychle arogantní přístup" "arogantní přístup" = true
    ∧ "empathy_human_approach" ∉ categorize "email cena rychle arogantní přístup"
    ∧ categorize "email cena rychle arogantní přístup" =
        ["communication_responsiveness", "fees_value_transparency", "speed_timeliness"] :=
  ⟨by decide, by decide, by decide⟩

/-- C7 (amended): the theme classifier returns the matched categories in
taxonomy-declaration order truncated to at most 3 (a sublist of the
declared category order, of length at most 3), returns no categories for
text that is empty after normalization, the text `"arogantní přístup"`
by itself classifies into `empathy_human_approach` (a text containing it
need not, when three earlier categories also match — see the
counterexample), and text containing only `"n/a"` classifies into no
category. -/
theorem claim_categorize :
    (∀ t : String, norm_text t = "" → categorize t = [])
    ∧ (∀ t : String, (categorize t).length ≤ 3)
    ∧ (∀ t : String, (categorize t).Sublist (TAX.map Prod.fst))
    ∧ categorize "arogantní přístup" = ["empathy_human_approach"]
    ∧ categorize "n/a" = [] := by
  refine ⟨?_, ?_, ?_, by decide, by decide⟩
  · intro t h
    simp [categorize, h]
  · intro t
    unfold categorize
    by_cases h : norm_text t = ""
    · simp [h]
    · simp only [if_neg h]
      exact List.length_take_le 3 _
  · intro t
    unfold categorize
    by_cases h : norm_text t = ""
    · simp [h]
    · simp only [if_neg h]
      exact ((List.take_sublist 3 _).trans ((List.filter_sublist TAX).map Prod.fst))

/-- C7 witness: whitespace-only text normalizes to the empty string and
classifies into no category, via the amended theorem. -/
theorem claim_categorize_w : categorize "  " = [] :=
  claim_categorize.1 "  " (by decide)

/-! ## Slug well-formedness and the firm-id selection -/

theorem toLowerPy_ne_dash (c : Char) (h : c ≠ '-') : toLowerPy c ≠ '-' := by
  unfold toLowerPy
  split_ifs with h1 h2
  · intro e
    have ht := charOfNat_toNat (c.toNat + 32) (by omega)
    rw [e] at ht
    have : ('-').toNat = 45 := by decide
    omega
  · intro e
    have ht := charOfNat_toNat (c.toNat + 32) (by omega)
    rw [e] at ht
    have : ('-').toNat = 45 := by decide
    omega
  · exact h

theorem slug_core_clean (pD : Char → Bool)
    (hpD : ∀ c, pD c = true ↔ c = '-')
    (L2 L3 L4 L5 : List Char)
    (hL3 : L3 = stripEnds pD L2)
    (hL4 : L4 = L3.map toLowerPy)
    (hL5 : L5 = collapseRuns pD '-' L4)
    (hmem2 : ∀ c ∈ L2, c = '-' ∨ isAsciiAlnum c = true)
    (h5 : L5 ≠ []) :
    slugClean (String.mk L5) := by
  have hpD2 : ∀ c, pD c = false ↔ c ≠ '-' := by
    intro c
    constructor
    · intro h e
      have := (hpD c).mpr e
      rw [h] at this
      cases this
    · intro hne
      cases hpc : pD c
      · rfl
      · exact absurd ((hpD c).mp hpc) hne
  refine ⟨?_, ?_, ?_, ?_, ?_⟩
  · intro e
    exact h5 (congrArg String.data e)
  · intro c hc
    replace hc : c ∈ L5 := hc
    rw [hL5] at hc
    rcases collapseRuns_mem pD '-' L4 c hc with h1 | ⟨hc4, hcd⟩
    · exact Or.inl h1
    · rw [hL4] at hc4
      obtain ⟨c0, hc0, he⟩ := List.mem_map.mp hc4
      rw [hL3] at hc0
      have hc0L2 : c0 ∈ L2 := stripEnds_subset pD L2 c0 hc0
      rcases hmem2 c0 hc0L2 with h2 | h3
      · left
        rw [← he, h2]
        decide
      · right
        rw [← he]
        exact toLowerPy_alnum c0 h3
  · show L5.Chain' _
    rw [hL5]
    exact (collapseRuns_chain pD '-' L4).imp (fun a b h => by
      rintro ⟨e1, e2⟩
      exact h ⟨(hpD a).mpr e1, (hpD b).mpr e2⟩)
  · intro hh
    replace hh : L5.head? = some '-' := hh
    cases hL4c : L4 with
    | nil =>
      rw [hL5, hL4c] at hh
      cases hh
    | cons d ds =>
      have hL3c : ∃ c0 ls, L3 = c0 :: ls ∧ d = toLowerPy c0 := by
        cases hc : L3 with
        | nil =>
          rw [hc] at hL4
          rw [hL4] at hL4c
          cases hL4c
        | cons c0 ls =>
          rw [hc] at hL4
          rw [hL4] at hL4c
          injection hL4c with e1 e2
          exact ⟨c0, ls, rfl, e1.symm⟩
      obtain ⟨c0, ls, h3c, hdc⟩ := hL3c
      have hpc0 : pD c0 = false := stripEnds_head pD L2 c0 (by rw [← hL3, h3c]; rfl)
      have hc0ne : c0 ≠ '-' := (hpD2 c0).mp hpc0
      have hdne : d ≠ '-' := by
        rw [hdc]
        exact toLowerPy_ne_dash c0 hc0ne
      have hhead := collapseRuns_head pD '-' L4 d (by rw [hL4c]; rfl)
        ((hpD2 d).mpr hdne)
      rw [hL5, hhead] at hh
      cases hh
      exact hdne rfl
  · intro hh
    replace hh : L5.getLast? = some '-' := hh
    cases hL4g : L4.getLast? with
    | none =>
      rw [hL5, List.getLast?_eq_none_iff.mp hL4g] at hh
      cases hh
    | some d =>
      have hd0 : ∃ c0, L3.getLast? = some c0 ∧ d = toLowerPy c0 := by
        rw [hL4, List.getLast?_map] at hL4g
        cases hc0 : L3.getLast? with
        | none =>
          rw [hc0] at hL4g
          cases hL4g
        | some c0 =>
          rw [hc0] at hL4g
          simp only [Option.map_some'] at hL4g
          cases hL4g
          exact ⟨c0, rfl, rfl⟩
      obtain ⟨c0, hc0, hdc⟩ := hd0
      have hpc0 : pD c0 = false := stripEnds_getLast pD L2 c0 (by rw [← hL3]; exact hc0)
      have hc0ne : c0 ≠ '-' := (hpD2 c0).mp hpc0
      have hdne : d ≠ '-' := by
        rw [hdc]
        exact toLowerPy_ne_dash c0 hc0ne
      have hlast := collapseRuns_getLast pD '-' L4 d hL4g ((hpD2 d).mpr hdne)
      rw [hL5, hlast] at hh
      cases hh
      exact hdne rfl

theorem slugify_eq (s : String) : slugify s =
    (if String.mk (collapseRuns (fun c => decide (c = '-')) '-'
        ((pyLower (String.mk (stripEnds (fun c => decide (c = '-'))
          (collapseRuns (fun c => !(isAsciiAlnum c)) '-' (s.data.map nfkdBase))))).data)) = ""
     then "unknown"
     else String.mk (collapseRuns (fun c => decide (c = '-')) '-'
        ((pyLower (String.mk (stripEnds (fun c => decide (c = '-'))
          (collapseRuns (fun c => !(isAsciiAlnum c)) '-' (s.data.map nfkdBase))))).data))) := rfl

theorem slugify_clean (s : String) : slugify s = "unknown" ∨ slugClean (slugify s) := by
  rw [slugify_eq]
  by_cases h : String.mk (collapseRuns (fun c => decide (c = '-')) '-'
      ((pyLower (String.mk (stripEnds (fun c => decide (c = '-'))
        (collapseRuns (fun c => !(isAsciiAlnum c)) '-' (s.data.map nfkdBase))))).data)) = ""
  · rw [if_pos h]
    exact Or.inl rfl
  · rw [if_neg h]
    right
    refine slug_core_clean (fun c => decide (c = '-'))
      (fun c => by simp)
      (collapseRuns (fun c => !(isAsciiAlnum c)) '-' (s.data.map nfkdBase))
      (stripEnds (fun c => decide (c = '-'))
        (collapseRuns (fun c => !(isAsciiAlnum c)) '-' (s.data.map nfkdBase)))
      ((pyLower (String.mk (stripEnds (fun c => decide (c = '-'))
        (collapseRuns (fun c => !(isAsciiAlnum c)) '-' (s.data.map nfkdBase))))).data)
      (collapseRuns (fun c => decide (c = '-')) '-'
        ((pyLower (String.mk (stripEnds (fun c => decide (c = '-'))
          (collapseRuns (fun c => !(isAsciiAlnum c)) '-' (s.data.map nfkdBase))))).data))
      rfl rfl rfl ?_ ?_
    · intro c hc
      rcases collapseRuns_mem _ '-' _ c hc with h1 | ⟨_, h2⟩
      · exact Or.inl h1
      · right
        simpa using h2
    · intro e
      exact h (congrArg String.mk e)

theorem idLe_total (a b : String) : (idLe a b || idLe b a) = true := by
  unfold idLe
  by_cases h1 : a.length < b.length
  · simp [h1]
  · by_cases h2 : b.length < a.length
    · simp [h2]
    · have he : a.length = b.length := by omega
      have := strLeB_total a b
      rcases Bool.or_eq_true_iff.mp this with h3 | h3
      · simp [he, h3]
      · simp [he, h3]

theorem idLe_trans (a b c : String) (h1 : idLe a b = true) (h2 : idLe b c = true) :
    idLe a c = true := by
  unfold idLe at h1 h2 ⊢
  simp only [Bool.or_eq_true, Bool.and_eq_true, decide_eq_true_eq, beq_iff_eq] at h1 h2 ⊢
  rcases h1 with h1 | ⟨h1, h1b⟩ <;> rcases h2 with h2 | ⟨h2, h2b⟩
  · left; omega
  · left; omega
  · left; omega
  · right; exact ⟨by omega, strLeB_trans a b c h1b h2b⟩

theorem finalize_firm_id (f : MFirm) :
    (finalize_firm f).firm_id =
      (match insertionSort idLe (f.firm_ids.filter (fun x => x ≠ "")) with
       | [] =>
         if f.website ≠ "" then slugify (host_of f.website)
         else slugify (if f.firm_name ≠ "" then f.firm_name else "unknown")
       | x :: _ => x) := rfl

/-! ## Claim C5 -/

/-- C5: the exported `firm_id` is the shortest external id (ties broken
lexicographically) when any external id exists; otherwise the slug of
the website's host component when a website is present; otherwise the
slug of the firm name; otherwise the literal `"unknown"`.  Slugs are
well-formed: `"unknown"` or non-empty lowercase-alphanumeric/hyphen
strings with no leading, trailing or doubled hyphen (`slugClean`); the
empty string slugs to `"unknown"` and diacritics are stripped. -/
theorem claim_firm_id (f : MFirm) :
    ((f.firm_ids.filter (fun x => x ≠ "")) ≠ [] →
       (finalize_firm f).firm_id ∈ f.firm_ids.filter (fun x => x ≠ "") ∧
       ∀ y ∈ f.firm_ids.filter (fun x => x ≠ ""), idLe (finalize_firm f).firm_id y = true)
    ∧ (f.firm_ids.filter (fun x => x ≠ "") = [] → f.website ≠ "" →
         (finalize_firm f).firm_id = slugify (host_of f.website))
    ∧ (f.firm_ids.filter (fun x => x ≠ "") = [] → f.website = "" → f.firm_name ≠ "" →
         (finalize_firm f).firm_id = slugify f.firm_name)
    ∧ (f.firm_ids.filter (fun x => x ≠ "") = [] → f.website = "" → f.firm_name = "" →
         (finalize_firm f).firm_id = "unknown")
    ∧ (∀ s : String, slugify s = "unknown" ∨ slugClean (slugify s))
    ∧ slugify "" = "unknown" ∧ slugify "Čáslavská" = "caslavska" := by
  refine ⟨?_, ?_, ?_, ?_, slugify_clean, by decide, by decide⟩
  · intro hne
    cases hsort : insertionSort idLe (f.firm_ids.filter (fun x => x ≠ "")) with
    | nil =>
      exfalso
      have := insertionSort_perm idLe (f.firm_ids.filter (fun x => x ≠ ""))
      rw [hsort] at this
      exact hne (List.Perm.eq_nil this.symm)
    | cons x t =>
      have hmin := insertionSort_head_min idLe idLe_trans idLe_total _ x t hsort
      rw [finalize_firm_id, hsort]
      exact hmin
  · intro hnil hw
    rw [finalize_firm_id]
    rw [show insertionSort idLe (f.firm_ids.filter (fun x => x ≠ "")) = [] from by
      rw [hnil]; rfl]
    simp [hw]
  · intro hnil hw hn
    rw [finalize_firm_id]
    rw [show insertionSort idLe (f.firm_ids.filter (fun x => x ≠ "")) = [] from by
      rw [hnil]; rfl]
    simp [hw, hn]
  · intro hnil hw hn
    rw [finalize_firm_id]
    rw [show insertionSort idLe (f.firm_ids.filter (fun x => x ≠ "")) = [] from by
      rw [hnil]; rfl]
    simp [hw, hn]
    decide

/-- C5 witness: for a firm with external ids `["abcd", "xy", "zz"]` the
chosen `firm_id` is a member of the candidates and minimal under the
(length, lexicographic) order. -/
theorem claim_firm_id_w :
    (finalize_firm wMF5).firm_id ∈ wMF5.firm_ids.filter (fun x => x ≠ "") ∧
    ∀ y ∈ wMF5.firm_ids.filter (fun x => x ≠ ""),
      idLe (finalize_firm wMF5).firm_id y = true :=
  (claim_firm_id wMF5).1 (by decide)

/-! ## Projections of the merge steps (for the order-sensitivity claim) -/

theorem website_ite (c : Prop) [inst : Decidable c] (m1 m2 : MFirm) :
    (ite c m1 m2).website = ite c m1.website m2.website := by
  split <;> rfl

theorem city_ite (c : Prop) [inst : Decidable c] (m1 m2 : MOffice) :
    (ite c m1 m2).city = ite c m1.city m2.city := by
  split <;> rfl

theorem address_ite (c : Prop) [inst : Decidable c] (m1 m2 : MOffice) :
    (ite c m1 m2).address = ite c m1.address m2.address := by
  split <;> rfl

theorem step_firm_proj (m : List (String × MFirm)) (f : FirmIn) (base : MFirm)
    (hbase : (match alookup (firm_key f) m with
              | some v => v
              | none =>
                ({ firm_name := f.firm_name, website := f.website,
                   firm_ids := if f.firm_id ≠ "" then [f.firm_id] else [],
                   offices := [] } : MFirm)) = base) :
    ∃ mfF, step_firm m f = storeBack (firm_key f) mfF m
      ∧ mfF.website = (if base.website = "" ∧ f.website ≠ "" then f.website else base.website)
      ∧ mfF.offices = f.offices.foldl step_office base.offices := by
  refine ⟨_, rfl, ?_, ?_⟩
  · simp only [step_firm, hbase, website_ite, offices_ite, ite_self]
  · simp only [step_firm, hbase, website_ite, offices_ite, ite_self]

theorem step_office_proj (os : List (String × MOffice)) (o : OfficeIn) (base : MOffice)
    (hbase : (match alookup (office_key o) os with
              | some v => v
              | none =>
                ({ city := o.city, address := o.address, platform_profiles := [],
                   reviews_map := [] } : MOffice)) = base) :
    ∃ moF, step_office os o = storeBack (office_key o) moF os
      ∧ moF.city = (if base.city = "" ∧ o.city ≠ "" then o.city else base.city)
      ∧ moF.address =
          (if base.address = "" ∧ o.address ≠ "" then o.address else base.address) := by
  refine ⟨_, rfl, ?_, ?_⟩
  · simp only [step_office, hbase, city_ite, address_ite, ite_self]
  · simp only [step_office, hbase, city_ite, address_ite, ite_self]

theorem fin_office_out_proj (l : List (String × MOffice)) (st : FinState) :
    ((l.foldl fin_office st).offices_out).map (fun oo => (oo.city, oo.address)) =
      st.offices_out.map (fun oo => (oo.city, oo.address)) ++
        l.map (fun ko => (ko.2.city, ko.2.address)) := by
  induction l generalizing st with
  | nil => simp
  | cons ko t ih =>
    rw [List.foldl_cons, ih]
    simp [fin_office]

theorem finalize_firm_web (f : MFirm) : (finalize_firm f).website = f.website := rfl

theorem finalize_offices_proj (f : MFirm) :
    (finalize_firm f).offices.map (fun oo => (oo.city, oo.address)) =
      f.offices.map (fun ko => (ko.2.city, ko.2.address)) := by
  show ((f.offices.foldl fin_office ⟨[], [], [], 0⟩).offices_out).map _ = _
  rw [fin_office_out_proj]
  rfl

theorem merge_two_first_wins (nA nB : String) (fA fB : FirmIn) (oA oB : OfficeIn)
    (hoA : fA.offices = [oA]) (hoB : fB.offices = [oB])
    (hk : firm_key fA = firm_key fB)
    (hok : office_key oA = office_key oB)
    (hwA : fA.website ≠ "")
    (hcA : oA.city ≠ "")
    (haA : oA.address ≠ "") :
    (merge_datasets [(nA, ⟨[fA]⟩), (nB, ⟨[fB]⟩)]).1.map
        (fun fo => (fo.website, fo.offices.map (fun oo => (oo.city, oo.address))))
      = [(fA.website, [(oA.city, oA.address)])] := by
  obtain ⟨mfA, he1, hw1, hoff1⟩ := step_firm_proj [] fA
    { firm_name := fA.firm_name, website := fA.website,
      firm_ids := if fA.firm_id ≠ "" then [fA.firm_id] else [], offices := [] } rfl
  rw [show storeBack (firm_key fA) mfA [] = [(firm_key fA, mfA)] from rfl] at he1
  have hw1e : mfA.website = fA.website := by
    rw [hw1]
    simp only
    rw [if_neg (by intro hcon; exact hwA hcon.1)]
  obtain ⟨moA, he2, hc2, ha2⟩ := step_office_proj [] oA
    { city := oA.city, address := oA.address, platform_profiles := [],
      reviews_map := [] } rfl
  rw [show storeBack (office_key oA) moA [] = [(office_key oA, moA)] from rfl] at he2
  have hc2e : moA.city = oA.city := by
    rw [hc2]
    simp only
    rw [if_neg (by intro hcon; exact hcA hcon.1)]
  have ha2e : moA.address = oA.address := by
    rw [ha2]
    simp only
    rw [if_neg (by intro hcon; exact haA hcon.1)]
  have hoff1e : mfA.offices = [(office_key oA, moA)] := by
    rw [hoff1, hoA]
    simp only [List.foldl_cons, List.foldl_nil]
    exact he2
  have hlk : alookup (firm_key fB) [(firm_key fA, mfA)] = some mfA := by
    simp [alookup, hk]
  obtain ⟨mfB, he3, hw3, hoff3⟩ := step_firm_proj [(firm_key fA, mfA)] fB mfA (by rw [hlk])
  have hw3e : mfB.website = fA.website := by
    rw [hw3, hw1e]
    rw [if_neg (by intro hcon; exact hwA hcon.1)]
  have hlk2 : alookup (office_key oB) [(office_key oA, moA)] = some moA := by
    simp [alookup, hok]
  obtain ⟨moB, he4, hc4, ha4⟩ := step_office_proj [(office_key oA, moA)] oB moA
    (by rw [hlk2])
  have hc4e : moB.city = oA.city := by
    rw [hc4, hc2e]
    rw [if_neg (by intro hcon; exact hcA hcon.1)]
  have ha4e : moB.address = oA.address := by
    rw [ha4, ha2e]
    rw [if_neg (by intro hcon; exact haA hcon.1)]
  have hoff3e : mfB.offices = [(office_key oB, moB)] := by
    rw [hoff3, hoB, hoff1e]
    simp only [List.foldl_cons, List.foldl_nil]
    rw [he4]
    unfold storeBack
    rw [if_pos hok]
  have hindex : merge_index [(nA, ⟨[fA]⟩), (nB, ⟨[fB]⟩)] = [(firm_key fB, mfB)] := by
    unfold merge_index
    simp only [List.foldl_cons, List.foldl_nil]
    rw [he1, he3]
    unfold storeBack
    rw [if_pos hk]
  show ((merge_index [(nA, ⟨[fA]⟩), (nB, ⟨[fB]⟩)]).map (fun p => finalize_firm p.2)).map _ = _
  rw [hindex]
  simp only [List.map_cons, List.map_nil]
  rw [finalize_firm_web, hw3e]
  rw [finalize_offices_proj, hoff3e]
  simp only [List.map_cons, List.map_nil]
  rw [hc4e, ha4e]

/-! ## Claim C8 -/

/-- C8: merging is order-sensitive exactly through the first-non-empty-
wins fields.  For two sources carrying the same office (same office key
under the same firm key) with non-empty conflicting cities, addresses
and firm websites, merging `[A, B]` exports A's address, city and
website while merging `[B, A]` exports B's. -/
theorem claim_merge_order (nA nB : String) (fA fB : FirmIn) (oA oB : OfficeIn)
    (hoA : fA.offices = [oA]) (hoB : fB.offices = [oB])
    (hk : firm_key fA = firm_key fB)
    (hok : office_key oA = office_key oB)
    (hwA : fA.website ≠ "") (hwB : fB.website ≠ "")
    (hcA : oA.city ≠ "") (hcB : oB.city ≠ "")
    (haA : oA.address ≠ "") (haB : oB.address ≠ "") :
    ((merge_datasets [(nA, ⟨[fA]⟩), (nB, ⟨[fB]⟩)]).1.map
        (fun fo => (fo.website, fo.offices.map (fun oo => (oo.city, oo.address))))
      = [(fA.website, [(oA.city, oA.address)])])
    ∧ ((merge_datasets [(nB, ⟨[fB]⟩), (nA, ⟨[fA]⟩)]).1.map
        (fun fo => (fo.website, fo.offices.map (fun oo => (oo.city, oo.address))))
      = [(fB.website, [(oB.city, oB.address)])]) :=
  ⟨merge_two_first_wins nA nB fA fB oA oB hoA hoB hk hok hwA hcA haA,
   merge_two_first_wins nB nA fB fA oB oA hoB hoA hk.symm hok.symm hwB hcB haB⟩

/-- C8 witness: concrete sources whose websites, cities and addresses
differ only in letter case (so the derived keys coincide while the raw
field values conflict): merging `[A, B]` keeps A's values, merging
`[B, A]` keeps B's. -/
theorem claim_merge_order_w :
    ((merge_datasets
        [("A", ⟨[{ firm_name := "Acme", website := "Acme.CZ", firm_id := "", offices := [oA8] }]⟩),
         ("B", ⟨[{ firm_name := "Acme", website := "acme.cz", firm_id := "", offices := [oB8] }]⟩)]).1.map
        (fun fo => (fo.website, fo.offices.map (fun oo => (oo.city, oo.address))))
      = [("Acme.CZ", [("Praha", "Main 1")])])
    ∧ ((merge_datasets
        [("B", ⟨[{ firm_name := "Acme", website := "acme.cz", firm_id := "", offices := [oB8] }]⟩),
         ("A", ⟨[{ firm_name := "Acme", website := "Acme.CZ", firm_id := "", offices := [oA8] }]⟩)]).1.map
        (fun fo => (fo.website, fo.offices.map (fun oo => (oo.city, oo.address))))
      = [("acme.cz", [("PRAHA", "MAIN 1")])]) :=
  claim_merge_order "A" "B"
    { firm_name := "Acme", website := "Acme.CZ", firm_id := "", offices := [oA8] }
    { firm_name := "Acme", website := "acme.cz", firm_id := "", offices := [oB8] }
    oA8 oB8 rfl rfl (by decide) (by decide) (by decide) (by decide)
    (by decide) (by decide) (by decide) (by decide)

/-! ## Totals of the sentiment tally -/

theorem sumCounts_cIncr (m : List (String × Nat)) (k : String) :
    sumCounts (cIncr m k) = sumCounts m + 1 := by
  induction m with
  | nil => simp [cIncr, sumCounts]
  | cons p t ih =>
    by_cases hp : p.1 = k
    · simp only [cIncr, if_pos hp, sumCounts, List.map_cons, List.sum_cons]
      omega
    · simp only [cIncr, if_neg hp, sumCounts, List.map_cons, List.sum_cons] at ih ⊢
      omega

theorem sumCounts_foldl_reviews (l : List Review) (c : List (String × Nat)) :
    sumCounts (l.foldl (fun c2 r => cIncr c2 (sentiment_label_of r)) c) =
      sumCounts c + l.length := by
  induction l generalizing c with
  | nil => simp
  | cons r t ih =>
    rw [List.foldl_cons, ih, sumCounts_cIncr]
    simp only [List.length_cons]
    omega

theorem sumCounts_foldl_firms (fs : List FirmOut) (c : List (String × Nat)) :
    sumCounts (fs.foldl
        (fun c f => (firm_reviews f).foldl (fun c2 r => cIncr c2 (sentiment_label_of r)) c)
        c) =
      sumCounts c + (fs.map (fun f => (firm_reviews f).length)).sum := by
  induction fs generalizing c with
  | nil => simp
  | cons f t ih =>
    rw [List.foldl_cons, ih, sumCounts_foldl_reviews]
    simp only [List.map_cons, List.sum_cons]
    omega

theorem fin_office_total (l : List (String × MOffice)) (st : FinState) :
    (l.foldl fin_office st).reviews_total =
      st.reviews_total + (l.map (fun ko => ko.2.reviews_map.length)).sum := by
  induction l generalizing st with
  | nil => simp
  | cons ko t ih =>
    rw [List.foldl_cons, ih]
    simp only [fin_office, List.map_cons, List.sum_cons, List.length_map]
    omega

theorem fin_office_out_lengths (l : List (String × MOffice)) (st : FinState) :
    ((l.foldl fin_office st).offices_out).map (fun oo => oo.reviews.length) =
      st.offices_out.map (fun oo => oo.reviews.length) ++
        l.map (fun ko => ko.2.reviews_map.length) := by
  induction l generalizing st with
  | nil => simp
  | cons ko t ih =>
    rw [List.foldl_cons, ih]
    simp [fin_office]

theorem finalize_total_eq (f : MFirm) :
    (finalize_firm f).collection_summary.reviews_collected_total =
      (firm_reviews (finalize_firm f)).length := by
  show (f.offices.foldl fin_office ⟨[], [], [], 0⟩).reviews_total =
    (((f.offices.foldl fin_office ⟨[], [], [], 0⟩).offices_out.map
      (fun o => o.reviews)).flatten).length
  rw [fin_office_total, List.length_flatten, List.map_map]
  have h2 := fin_office_out_lengths f.offices ⟨[], [], [], 0⟩
  simp only [List.map_nil, List.nil_append] at h2
  rw [show (List.length ∘ fun (o : OfficeOut) => o.reviews) =
      (fun oo => oo.reviews.length) from rfl, h2]
  simp

/-! ## Claim C10 -/

/-- C10: every merged review is tallied into the sentiment distribution
exactly once (absent labels tally as `"unknown"`), so the sum of all
counts in `sentiment_distribution` equals `dataset_quality.
reviews_collected`, which `coverage.reviews_total` also reports. -/
theorem claim_sentiment_total (datasets : List (String × Dataset)) (skipped : List String) :
    sumCounts ((build_analysis (merge_datasets datasets).1 (merge_datasets datasets).2
        skipped).sentiment_distribution) =
      (merge_datasets datasets).2.reviews_collected
    ∧ (build_analysis (merge_datasets datasets).1 (merge_datasets datasets).2
        skipped).coverage.reviews_total = (merge_datasets datasets).2.reviews_collected
    ∧ (∀ r : Review, r.sentiment_label = "" → sentiment_label_of r = "unknown") := by
  refine ⟨?_, rfl, ?_⟩
  · show sumCounts ((merge_datasets datasets).1.foldl
        (fun c f => (firm_reviews f).foldl (fun c2 r => cIncr c2 (sentiment_label_of r)) c)
        []) = _
    rw [sumCounts_foldl_firms]
    show 0 + _ = ((merge_datasets datasets).1.map
      (fun x => x.collection_summary.reviews_collected_total)).sum
    rw [Nat.zero_add]
    congr 1
    show List.map (fun f => (firm_reviews f).length)
        ((merge_index datasets).map (fun p => finalize_firm p.2)) =
      List.map (fun x => x.collection_summary.reviews_collected_total)
        ((merge_index datasets).map (fun p => finalize_firm p.2))
    rw [List.map_map, List.map_map]
    exact List.map_congr_left (fun p _ => (finalize_total_eq p.2).symm)
  · intro r hr
    unfold sentiment_label_of
    rw [if_neg (by simp [hr])]

/-! ## The ranking comparison is a total preorder -/

theorem qLtB_iff (a b : Q) : qLtB a b = true ↔ toRat a < toRat b := by
  unfold qLtB toRat
  rw [div_lt_div_iff₀ (by exact_mod_cast a.dpos) (by exact_mod_cast b.dpos)]
  constructor
  · intro h
    exact_mod_cast (by exact_mod_cast of_decide_eq_true h :
      a.num * (b.den : Int) < b.num * (a.den : Int))
  · intro h
    exact decide_eq_true (by exact_mod_cast h)

theorem qEqB_iff (a b : Q) : qEqB a b = true ↔ toRat a = toRat b := by
  unfold qEqB toRat
  rw [div_eq_div_iff (den_cast_ne a) (den_cast_ne b)]
  constructor
  · intro h
    exact_mod_cast (by exact_mod_cast beq_iff_eq.mp h :
      a.num * (b.den : Int) = b.num * (a.den : Int))
  · intro h
    exact beq_iff_eq.mpr (by exact_mod_cast h)

theorem rankKeyLe_iff (av bv : Q) (an bn : Nat) (a b : String) :
    rankKeyLe av bv an bn a b = true ↔
      (toRat bv < toRat av ∨
        (toRat av = toRat bv ∧ (bn < an ∨ (an = bn ∧ strLeB a b = true)))) := by
  unfold rankKeyLe
  by_cases he : qEqB av bv = true
  · have hv : toRat av = toRat bv := (qEqB_iff av bv).mp he
    rw [he]
    simp only [Bool.not_true, Bool.false_eq_true, if_false]
    by_cases hn : an ≠ bn
    · rw [if_pos hn]
      simp only [decide_eq_true_eq]
      constructor
      · intro h
        exact Or.inr ⟨hv, Or.inl h⟩
      · rintro (h | ⟨_, h | ⟨h1, _⟩⟩)
        · exact absurd hv (ne_of_gt h)
        · exact h
        · exact absurd h1 hn
    · rw [if_neg hn]
      push_neg at hn
      constructor
      · intro h
        exact Or.inr ⟨hv, Or.inr ⟨hn, h⟩⟩
      · rintro (h | ⟨_, h | ⟨_, h⟩⟩)
        · exact absurd hv (ne_of_gt h)
        · omega
        · exact h
  · have hv : toRat av ≠ toRat bv := fun e => he ((qEqB_iff av bv).mpr e)
    rw [show (!(qEqB av bv)) = true from by simp [he]]
    rw [if_pos rfl]
    rw [qLtB_iff]
    constructor
    · intro h
      exact Or.inl h
    · rintro (h | ⟨h, _⟩)
      · exact h
      · exact absurd h hv

theorem rankKeyLe_trans (av bv cv : Q) (an bn cn : Nat) (a b c : String)
    (h1 : rankKeyLe av bv an bn a b = true) (h2 : rankKeyLe bv cv bn cn b c = true) :
    rankKeyLe av cv an cn a c = true := by
  rw [rankKeyLe_iff] at h1 h2 ⊢
  rcases h1 with h1 | ⟨h1, h1b⟩ <;> rcases h2 with h2 | ⟨h2, h2b⟩
  · exact Or.inl (h2.trans h1)
  · exact Or.inl (h2 ▸ h1)
  · exact Or.inl (by rw [h1]; exact h2)
  · refine Or.inr ⟨h1.trans h2, ?_⟩
    rcases h1b with h1b | ⟨h1b, h1c⟩ <;> rcases h2b with h2b | ⟨h2b, h2c⟩
    · exact Or.inl (h2b.trans h1b)
    · exact Or.inl (h2b ▸ h1b)
    · exact Or.inl (by omega)
    · exact Or.inr ⟨by omega, strLeB_trans a b c h1c h2c⟩

theorem rankKeyLe_total (av bv : Q) (an bn : Nat) (a b : String) :
    (rankKeyLe av bv an bn a b || rankKeyLe bv av bn an b a) = true := by
  rw [Bool.or_eq_true_iff]
  rw [rankKeyLe_iff, rankKeyLe_iff]
  rcases lt_trichotomy (toRat av) (toRat bv) with hv | hv | hv
  · exact Or.inr (Or.inl hv)
  · rcases Nat.lt_trichotomy an bn with hn | hn | hn
    · exact Or.inr (Or.inr ⟨hv.symm, Or.inl hn⟩)
    · rcases Bool.or_eq_true_iff.mp (strLeB_total a b) with hs | hs
      · exact Or.inl (Or.inr ⟨hv, Or.inr ⟨hn, hs⟩⟩)
      · exact Or.inr (Or.inr ⟨hv.symm, Or.inr ⟨hn.symm, hs⟩⟩)
    · exact Or.inl (Or.inr ⟨hv, Or.inl hn⟩)
  · exact Or.inl (Or.inl hv)

theorem leRating_trans (x y z : FirmStat) (h1 : leRating x y = true)
    (h2 : leRating y z = true) : leRating x z = true :=
  rankKeyLe_trans _ _ _ _ _ _ _ _ _ h1 h2

theorem leRating_total (x y : FirmStat) : (leRating x y || leRating y x) = true :=
  rankKeyLe_total _ _ _ _ _ _

theorem leSent_trans (x y z : FirmStat) (h1 : leSent x y = true)
    (h2 : leSent y z = true) : leSent x z = true :=
  rankKeyLe_trans _ _ _ _ _ _ _ _ _ h1 h2

theorem leSent_total (x y : FirmStat) : (leSent x y || leSent y x) = true :=
  rankKeyLe_total _ _ _ _ _ _

theorem ranked_spec (le : FirmStat → FirmStat → Bool)
    (htrans : ∀ a b c, le a b = true → le b c = true → le a c = true)
    (htot : ∀ a b, (le a b || le b a) = true)
    (qual : FirmStat → Bool) (stats : List FirmStat) :
    ((insertionSort le (stats.filter qual)).Perm (stats.filter qual)
      ∧ (insertionSort le (stats.filter qual)).Pairwise (fun a b => le a b = true))
    ∧ ((insertionSort le (stats.filter qual)).take 30).length =
        min 30 (stats.filter qual).length
    ∧ (∀ s ∈ (insertionSort le (stats.filter qual)).take 30, s ∈ stats.filter qual)
    ∧ ((stats.filter qual).length ≤ 30 →
        ∀ s ∈ stats.filter qual, s ∈ (insertionSort le (stats.filter qual)).take 30) := by
  have hperm := insertionSort_perm le (stats.filter qual)
  refine ⟨⟨hperm, insertionSort_pairwise le htrans htot _⟩, ?_, ?_, ?_⟩
  · rw [List.length_take, hperm.length_eq]
  · intro s hs
    exact hperm.mem_iff.mp (List.mem_of_mem_take hs)
  · intro hle s hs
    rw [List.take_of_length_le (by rw [hperm.length_eq]; exact hle)]
    exact hperm.mem_iff.mpr hs

/-! ## Claim C4 (corrected) -/

/-- C4 counterexample: a finalized dataset with 31 firms, every one
carrying exactly 3 rated reviews and the same average, in which the firm
`"f31"` has exactly 3 rated reviews yet does not appear in
`by_avg_rating_5` — the cap at 30 entries excludes it (the tie-break
sorts by ascending firm name, so the 31st name drops out). -/
theorem claim_rankings_counter :
    ((firm_stats (merge_datasets [("s", ds31)]).1).any
        (fun s => s.firm_id = "f31" && s.ratings_n == 3)) = true
    ∧ ((build_analysis (merge_datasets [("s", ds31)]).1 (merge_datasets [("s", ds31)]).2
        []).by_avg_rating_5.map (fun e => e.firm_id)) =
      ["f01", "f02", "f03", "f04", "f05", "f06", "f07", "f08", "f09", "f10",
       "f11", "f12", "f13", "f14", "f15", "f16", "f17", "f18", "f19", "f20",
       "f21", "f22", "f23", "f24", "f25", "f26", "f27", "f28", "f29", "f30"]
    ∧ ((build_analysis (merge_datasets [("s", ds31)]).1 (merge_datasets [("s", ds31)]).2
        []).by_avg_rating_5.all (fun e => e.firm_id ≠ "f31")) = true :=
  ⟨by decide, by decide, by decide⟩

/-- C4 (amended): each ranking consists of the firm stats passing the
minimum sample size of 3, sorted by descending average with ties broken
by descending sample size then ascending firm name (the sorted
permutation `L` below), truncated to at most 30 entries, with the score
rounded to 3 decimals by the entry constructors `mkEntryR`/`mkEntryS`.
A firm with exactly 2 rated reviews never appears; a firm with exactly 3
appears whenever at most 30 firms qualify (with more than 30 qualifying
firms the cap can exclude it — see the counterexample). -/
theorem claim_rankings (firms : List FirmOut) :
    (∃ L : List FirmStat, L.Perm ((firm_stats firms).filter qualRating)
       ∧ L.Pairwise (fun a b => leRating a b = true)
       ∧ by_avg_rating_5 (firm_stats firms) = (L.take 30).map mkEntryR)
    ∧ (by_avg_rating_5 (firm_stats firms)).length =
        min 30 ((firm_stats firms).filter qualRating).length
    ∧ (∀ e ∈ by_avg_rating_5 (firm_stats firms),
        3 ≤ e.ratings_n ∧ ∃ s ∈ (firm_stats firms).filter qualRating, e = mkEntryR s)
    ∧ (((firm_stats firms).filter qualRating).length ≤ 30 →
        ∀ s ∈ (firm_stats firms).filter qualRating,
          mkEntryR s ∈ by_avg_rating_5 (firm_stats firms))
    ∧ (∃ L : List FirmStat, L.Perm ((firm_stats firms).filter qualSent)
       ∧ L.Pairwise (fun a b => leSent a b = true)
       ∧ by_avg_sentiment_score (firm_stats firms) = (L.take 30).map mkEntryS)
    ∧ (by_avg_sentiment_score (firm_stats firms)).length =
        min 30 ((firm_stats firms).filter qualSent).length
    ∧ (∀ e ∈ by_avg_sentiment_score (firm_stats firms),
        3 ≤ e.scored_n ∧ ∃ s ∈ (firm_stats firms).filter qualSent, e = mkEntryS s)
    ∧ (((firm_stats firms).filter qualSent).length ≤ 30 →
        ∀ s ∈ (firm_stats firms).filter qualSent,
          mkEntryS s ∈ by_avg_sentiment_score (firm_stats firms))
    ∧ (∀ (dq : DatasetQuality) (skipped : List String),
        (build_analysis firms dq skipped).by_avg_rating_5 =
          by_avg_rating_5 (firm_stats firms)
        ∧ (build_analysis firms dq skipped).by_avg_sentiment_score =
          by_avg_sentiment_score (firm_stats firms)) := by
  obtain ⟨⟨hpR, hsR⟩, hlR, hsoR, hcoR⟩ :=
    ranked_spec leRating leRating_trans leRating_total qualRating (firm_stats firms)
  obtain ⟨⟨hpS, hsS⟩, hlS, hsoS, hcoS⟩ :=
    ranked_spec leSent leSent_trans leSent_total qualSent (firm_stats firms)
  refine ⟨⟨_, hpR, hsR, rfl⟩, ?_, ?_, ?_, ⟨_, hpS, hsS, rfl⟩, ?_, ?_, ?_,
    fun dq skipped => ⟨rfl, rfl⟩⟩
  · show (((rank_by_rating (firm_stats firms)).take 30).map mkEntryR).length = _
    rw [List.length_map]
    exact hlR
  · intro e he
    obtain ⟨s, hs, hse⟩ := List.mem_map.mp he
    have hsf := hsoR s hs
    have hq := (List.mem_filter.mp hsf).2
    unfold qualRating at hq
    rw [Bool.and_eq_true, decide_eq_true_eq] at hq
    exact ⟨by rw [← hse]; exact hq.1, s, hsf, hse.symm⟩
  · intro hle s hs
    exact List.mem_map_of_mem mkEntryR (hcoR hle s hs)
  · show (((rank_by_sent (firm_stats firms)).take 30).map mkEntryS).length = _
    rw [List.length_map]
    exact hlS
  · intro e he
    obtain ⟨s, hs, hse⟩ := List.mem_map.mp he
    have hsf := hsoS s hs
    have hq := (List.mem_filter.mp hsf).2
    unfold qualSent at hq
    rw [Bool.and_eq_true, decide_eq_true_eq] at hq
    exact ⟨by rw [← hse]; exact hq.1, s, hsf, hse.symm⟩
  · intro hle s hs
    exact List.mem_map_of_mem mkEntryS (hcoS hle s hs)

/-- C4 witness: a list holding one firm with 3 rated reviews; its stat
qualifies, at most 30 firms qualify, and the completeness direction of
the amended theorem places its entry in `by_avg_rating_5`. -/
theorem claim_rankings_w :
    mkEntryR (firm_stat wF4) ∈ by_avg_rating_5 (firm_stats [wF4]) :=
  (claim_rankings [wF4]).2.2.2.1 (by decide) (firm_stat wF4) (List.Mem.head _)
